import Mathlib

/-!
Shallow embedding of the session-construction and aggregation pipeline of
the `vibe-coding-stats` repository.

Sources embedded here:
* `src/logic/sessions.ts` (`buildSessions`, `createSession`)
* `src/logic/aggregate.ts` (`calculateAggregateStats`, `aggregateByAuthor`,
  `aggregateByDay`, `calculateTotals`, `calculateMostProductiveDayOfWeek`,
  `calculateLongestStreakDays`, `calculateMinTimeBetweenSessions`)
* `src/util/time.ts` (`diffInMinutes`)

Modelling conventions:
* JavaScript `Date` values are their `getTime()` result: epoch milliseconds,
  modelled as `Int`.
* JavaScript numbers are modelled as exact rationals `ℚ` (the algorithms are
  specified over real arithmetic; IEEE-754 rounding is out of scope).
* `Math.round` rounds half toward positive infinity: `⌊x + 1/2⌋`.
* A JavaScript `Map` is an association list kept in key-insertion order:
  `Map.set` on a fresh key appends at the end, on an existing key it updates
  the entry in place; iteration follows that order.
* `Array.prototype.sort` is a stable sort (ECMAScript 2019); it is modelled
  by a stable insertion sort parameterised by the strict "must precede"
  relation derived from the JS comparator.
* `undefined`-or-value fields are `Option`.
* The timezone-sensitive date formatting `toISODate` (date-fns-tz
  `formatInTimeZone`) is an external library call; `buildSessions` is
  parameterised by the formatting function `tzFmt`, and every theorem
  quantifies over it.
-/

/-- JavaScript `Math.round`: round half toward positive infinity. -/
def jsRound (q : ℚ) : ℤ := Rat.floor (q + 1/2)

/-- The pervasive `Math.round(x * 100) / 100` two-decimal rounding. -/
def round2 (q : ℚ) : ℚ := (jsRound (q * 100) : ℚ) / 100

/-- From `src/util/time.ts`: `Math.abs(date1.getTime() - date2.getTime()) / (1000 * 60)`. -/
def diffInMinutes (date1 date2 : Int) : ℚ := ((date1 - date2).natAbs : ℚ) / 60000

/-- JavaScript `Date.prototype.getDay` for a machine running in UTC:
day of the week (0 = Sunday .. 6 = Saturday) of the instant `t` (epoch ms).
The Unix epoch fell on a Thursday, day 4. -/
def jsGetDay (t : Int) : ℕ := ((t.fdiv 86400000 + 4) % 7).toNat

/-- JavaScript string comparison on chars (`<` on code units). -/
def charListLt : List Char → List Char → Bool
  | [], [] => false
  | [], _ :: _ => true
  | _ :: _, [] => false
  | x :: xs, y :: ys =>
    if x.toNat < y.toNat then true
    else if y.toNat < x.toNat then false
    else charListLt xs ys

/-- JavaScript `<` on strings (lexicographic on code units; for the
fixed-width ISO dates produced by the pipeline this agrees with
`localeCompare` and with the default `Array.prototype.sort` order). -/
def strLt (a b : String) : Bool := charListLt a.data b.data

/-- Stable insertion of `x` into `l`: `x` is placed before the first element
`y` that does not strictly precede it (`lt y x = false`). -/
def insertByLt (lt : α → α → Bool) (x : α) : List α → List α
  | [] => [x]
  | y :: ys => if lt y x then y :: insertByLt lt x ys else x :: y :: ys

/-- Stable sort by the strict precedence `lt` (model of the stable
`Array.prototype.sort`: `lt a b` means the comparator orders `a` strictly
before `b`; elements that do not strictly order keep their input order). -/
def sortByLt (lt : α → α → Bool) : List α → List α
  | [] => []
  | x :: xs => insertByLt lt x (sortByLt lt xs)

/-- First-occurrence deduplication (the order in which a JS `Map` or `Set`
enumerates its keys). -/
def dedupFirst [DecidableEq α] : List α → List α
  | [] => []
  | x :: xs => x :: dedupFirst (xs.filter (fun a => decide (a ≠ x)))
  termination_by l => l.length
  decreasing_by simp only [List.length_cons]; exact Nat.lt_succ_of_le (List.length_filter_le _ _)

/-- One `Map.set`-style update of an association list: if `k` is present the
first entry for it is updated in place with `f`, otherwise `(k, init)` is
appended at the end (JS `Map` key-insertion order). -/
def upsert [DecidableEq κ] (k : κ) (f : β → β) (init : β) : List (κ × β) → List (κ × β)
  | [] => [(k, init)]
  | (a, b) :: rest =>
    if a = k then (a, f b) :: rest else (a, b) :: upsert k f init rest

/-- Fold a list into a JS-`Map`-style association list: each item `x` updates
the entry for `key x` (creating it with `init x`, extending it with
`step · x`). -/
def accumBy [DecidableEq κ] (key : α → κ) (init : α → β) (step : β → α → β)
    (xs : List α) : List (κ × β) :=
  xs.foldl (fun acc x => upsert (key x) (fun b => step b x) (init x) acc) []

/-- Commit entity (`src/model/types.ts`): `date` is the parsed timestamp as
epoch milliseconds. -/
structure Commit where
  sha : String
  author : String
  authorLogin : Option String
  date : Int
  deriving Repr, DecidableEq

/-- Session entity (`src/model/types.ts`). -/
structure Session where
  author : String
  authorLogin : Option String
  commits : List Commit
  startTime : Int
  endTime : Int
  durationMinutes : ℚ
  date : String
  avgMinutesBetweenCommits : Option ℚ
  maxMinutesBetweenCommits : Option ℚ
  deriving Repr, DecidableEq

/-- `SessionConfig` from `src/logic/sessions.ts`. -/
structure SessionConfig where
  sessionTimeoutMin : ℚ
  firstCommitBonusMin : ℚ
  timezone : String
  deriving Repr, DecidableEq

/-- JavaScript truthiness of an optional string (`undefined` and `""` are falsy). -/
def jsTruthyStr : Option String → Bool
  | none => false
  | some s => decide (s ≠ "")

/-- The `authorLogin` update performed while grouping:
`if (!existing.authorLogin && commit.authorLogin) existing.authorLogin = commit.authorLogin`. -/
def updLogin (old new : Option String) : Option String :=
  if !jsTruthyStr old && jsTruthyStr new then new else old

/-- The commit-grouping loop of `buildSessions`: a `Map` from author to the
author's commits (in input order) together with the tracked `authorLogin`. -/
def groupCommitsByAuthor (commits : List Commit) :
    List (String × List Commit × Option String) :=
  accumBy (fun c => c.author)
    (fun c => ([c], c.authorLogin))
    (fun b c => (b.1 ++ [c], updLogin b.2 c.authorLogin))
    commits

/-- The per-author sweep of `buildSessions`, lines 39-57 of
`src/logic/sessions.ts`. `cur` is the open session (nonempty, in order) and
`lastC` its last commit (the loop reads `currentSession[currentSession.length - 1]`;
the model threads that last element alongside). Returns the list of emitted
session commit-lists, including the final open session. -/
def sweepFrom (timeout : ℚ) (cur : List Commit) (lastC : Commit) :
    List Commit → List (List Commit)
  | [] => [cur]
  | c :: rest =>
    if diffInMinutes c.date lastC.date ≤ timeout then
      sweepFrom timeout (cur ++ [c]) c rest
    else
      cur :: sweepFrom timeout [c] c rest

/-- Splits one author's sorted commit list into session commit-lists
(the sweep starts with an empty open session, so the first commit always
opens a new one; an empty input emits nothing). -/
def splitSessions (timeout : ℚ) : List Commit → List (List Commit)
  | [] => []
  | c :: rest => sweepFrom timeout [c] c rest

/-- Gaps between adjacent commits of a list, in minutes:
`diffInMinutes(commits[i].date, commits[i-1].date)` for `i = 1 .. n-1`. -/
def adjacentGaps (commits : List Commit) : List ℚ :=
  (commits.zip commits.tail).map (fun p => diffInMinutes p.2.date p.1.date)

/-- `createSession` from `src/logic/sessions.ts` (lines 71-121). `commits` is
nonempty at every call site; the `getD 0` defaults model the out-of-bounds
reads that JavaScript would crash on and are never exercised. -/
def createSession (tzFmt : Int → String → String) (commits : List Commit)
    (author : String) (authorLogin : Option String)
    (firstCommitBonusMin : ℚ) (timezone : String) : Session :=
  let startTime := ((commits.head?).map (fun c => c.date)).getD 0
  let endTime := ((commits.getLast?).map (fun c => c.date)).getD 0
  let durationMinutes : ℚ :=
    if commits.length = 1 then firstCommitBonusMin
    else diffInMinutes startTime endTime + firstCommitBonusMin
  let date := tzFmt startTime timezone
  let gaps := adjacentGaps commits
  let avgMinutesBetweenCommits : Option ℚ :=
    if 1 < commits.length then
      some (round2 ((gaps.foldl (· + ·) 0) / gaps.length))
    else none
  let maxMinutesBetweenCommits : Option ℚ :=
    if 1 < commits.length then
      match gaps with
      | [] => none
      | g :: gs => some (round2 (gs.foldl max g))
    else none
  { author := author
    authorLogin := authorLogin
    commits := commits
    startTime := startTime
    endTime := endTime
    durationMinutes := durationMinutes
    date := date
    avgMinutesBetweenCommits := avgMinutesBetweenCommits
    maxMinutesBetweenCommits := maxMinutesBetweenCommits }

/-- `buildSessions` from `src/logic/sessions.ts` (lines 15-66): group commits
by author (insertion order), sort each author's commits ascending by
timestamp (stable), sweep them into sessions, and emit the sessions of each
author in turn. -/
def buildSessions (tzFmt : Int → String → String) (commits : List Commit)
    (config : SessionConfig) : List Session :=
  (groupCommitsByAuthor commits).flatMap fun entry =>
    let sortedCommits := sortByLt (fun a b => a.date < b.date) entry.2.1
    (splitSessions config.sessionTimeoutMin sortedCommits).map fun sc =>
      createSession tzFmt sc entry.1 entry.2.2 config.firstCommitBonusMin config.timezone

/-- `AggregateStats` from `src/model/types.ts`. -/
structure AggregateStats where
  totalHours : ℚ
  sessionsCount : ℕ
  devDays : ℕ
  totalCommits : ℕ
  avgCommitsPerSession : ℚ
  avgSessionsPerDay : ℚ
  longestSessionHours : ℚ
  avgSessionHours : ℚ
  mostProductiveDayOfWeek : Option String
  longestStreakDays : ℕ
  minTimeBetweenSessionsMin : Option ℚ
  avgMinutesBetweenCommits : Option ℚ
  maxMinutesBetweenCommits : Option ℚ
  deriving Repr, DecidableEq

/-- Per-author record returned by `aggregateByAuthor`: the author identity
spread together with the shared `AggregateStats`. -/
structure AuthorStats where
  author : String
  authorLogin : Option String
  stats : AggregateStats
  deriving Repr, DecidableEq

/-- `DayStats` from `src/model/types.ts`. -/
structure DayStats where
  date : String
  totalHours : ℚ
  sessionsCount : ℕ
  totalCommits : ℕ
  authors : List String
  deriving Repr, DecidableEq

/-- The weekday names used by `calculateMostProductiveDayOfWeek`. -/
def dayNames : List String :=
  ["Sunday", "Monday", "Tuesday", "Wednesday", "Thursday", "Friday", "Saturday"]

/-- Civil-calendar day count from the epoch (Howard Hinnant's
`days_from_civil`), used to model `new Date('YYYY-MM-DD').getTime()`. -/
def daysFromCivil (y : Int) (m d : Int) : Int :=
  let y' : Int := if m ≤ 2 then y - 1 else y
  let era : Int := y'.fdiv 400
  let yoe : Int := y' - era * 400
  let mp : Int := (m + 9) % 12
  let doy : Int := (153 * mp + 2) / 5 + d - 1
  let doe : Int := yoe * 365 + yoe / 4 - yoe / 100 + doy
  era * 146097 + doe - 719468

/-- Model of `new Date(s).getTime()` for the ISO calendar dates
(`YYYY-MM-DD`, parsed as UTC midnight) that the pipeline's `date` fields
carry; any other string yields `none` (JavaScript `NaN`). -/
def parseISODateMs (s : String) : Option Int :=
  match (s.splitOn "-").map String.toNat? with
  | [some y, some m, some d] => some (daysFromCivil y m d * 86400000)
  | _ => none

/-- The day-difference test of `calculateLongestStreakDays`:
`Math.round((currDate - prevDate) / 86400000) === 1`. With an unparseable
date the difference is `NaN` and the comparison is false. -/
def isNextDay (prev curr : String) : Bool :=
  match parseISODateMs prev, parseISODateMs curr with
  | some a, some b => decide (jsRound (((b - a : Int) : ℚ) / 86400000) = 1)
  | _, _ => false

/-- The streak loop of `calculateLongestStreakDays` over the sorted unique
dates, carrying `currentStreak` and `longestStreak`. -/
def streakLoop : List String → ℕ → ℕ → ℕ
  | [], _, longest => longest
  | [_], _, longest => longest
  | d1 :: d2 :: rest, cur, longest =>
    if isNextDay d1 d2 then
      streakLoop (d2 :: rest) (cur + 1) (max longest (cur + 1))
    else
      streakLoop (d2 :: rest) 1 longest

/-- `calculateLongestStreakDays` from `src/logic/aggregate.ts` (lines 170-200). -/
def calculateLongestStreakDays (sessions : List Session) : ℕ :=
  if sessions.length = 0 then 0
  else
    let dates := sortByLt strLt (dedupFirst (sessions.map (fun s => s.date)))
    if dates.length = 0 then 0
    else streakLoop dates 1 1

/-- The strict-greater scan of `calculateMostProductiveDayOfWeek`
(lines 155-162): fold over the weekday buckets keeping `(maxHours, maxDay)`,
updating only on `hours > maxHours`, starting from `(0, 0)`. -/
def scanMaxDay (entries : List (ℕ × ℚ)) : ℚ × ℕ :=
  entries.foldl (fun acc e => if acc.1 < e.2 then (e.2, e.1) else acc) (0, 0)

/-- The weekday buckets of `calculateMostProductiveDayOfWeek`: a `Map` from
`getDay(startTime)` to summed session hours, in first-encounter order. -/
def dayHoursOf (sessions : List Session) : List (ℕ × ℚ) :=
  accumBy (fun s => jsGetDay s.startTime)
    (fun s => 0 + s.durationMinutes / 60)
    (fun h s => h + s.durationMinutes / 60)
    sessions

/-- `calculateMostProductiveDayOfWeek` from `src/logic/aggregate.ts`
(lines 140-165). -/
def calculateMostProductiveDayOfWeek (sessions : List Session) : Option String :=
  if sessions.length = 0 then none
  else
    let dayHours := dayHoursOf sessions
    if dayHours.length = 0 then none
    else some (dayNames.getD (scanMaxDay dayHours).2 "")

/-- The per-author gap scan of `calculateMinTimeBetweenSessions`
(lines 220-238): sort one author's sessions by `endTime` (stable), walk the
adjacent pairs, and fold the strictly positive gaps into the running
minimum (`none` models the initial `Infinity`). -/
def authorMinGapFold (acc : Option ℚ) (authorSessions : List Session) : Option ℚ :=
  if authorSessions.length < 2 then acc
  else
    let sorted := sortByLt (fun a b : Session => a.endTime < b.endTime) authorSessions
    (sorted.zip sorted.tail).foldl
      (fun acc2 p =>
        let gapMinutes : ℚ := ((p.2.startTime - p.1.endTime : Int) : ℚ) / 60000
        if 0 < gapMinutes then
          match acc2 with
          | none => some gapMinutes
          | some m => some (min m gapMinutes)
        else acc2)
      acc

/-- `calculateMinTimeBetweenSessions` from `src/logic/aggregate.ts`
(lines 206-244). -/
def calculateMinTimeBetweenSessions (sessions : List Session) : Option ℚ :=
  if sessions.length < 2 then none
  else
    let sessionsByAuthor :=
      accumBy (fun s : Session => s.author) (fun s => [s]) (fun l s => l ++ [s]) sessions
    let minGapMinutes := sessionsByAuthor.foldl (fun acc e => authorMinGapFold acc e.2) none
    minGapMinutes.map round2

/-- `Math.max(...)` over a list of hours; the empty case is guarded at every
call site (`sessions.length > 0`). -/
def jsMaxList (l : List ℚ) : ℚ :=
  match l with
  | [] => 0
  | x :: xs => xs.foldl max x

/-- The aggregate-level commit-gap multiset (lines 35-46): for every session
with a defined per-session average, `commits.length - 1` copies of that
average are appended. -/
def allCommitGapsOf (sessions : List Session) : List ℚ :=
  sessions.flatMap fun s =>
    match s.avgMinutesBetweenCommits with
    | some a => List.replicate (s.commits.length - 1) a
    | none => []

/-- The running `maxCommitGap` accumulator (lines 36, 43-45), seeded with 0. -/
def maxCommitGapOf (sessions : List Session) : ℚ :=
  sessions.foldl
    (fun m s =>
      match s.maxMinutesBetweenCommits with
      | some v => max m v
      | none => m)
    0

/-- `calculateAggregateStats` from `src/logic/aggregate.ts` (lines 7-71). -/
def calculateAggregateStats (sessions : List Session) : AggregateStats :=
  let totalHours : ℚ := sessions.foldl (fun sum s => sum + s.durationMinutes / 60) 0
  let sessionsCount := sessions.length
  let totalCommits : ℕ := sessions.foldl (fun sum s => sum + s.commits.length) 0
  let devDays := (dedupFirst (sessions.map (fun s => s.date))).length
  let longestSessionHours : ℚ :=
    if 0 < sessions.length then jsMaxList (sessions.map (fun s => s.durationMinutes / 60)) else 0
  let avgCommitsPerSession : ℚ :=
    if 0 < sessionsCount then (totalCommits : ℚ) / (sessionsCount : ℚ) else 0
  let avgSessionsPerDay : ℚ :=
    if 0 < devDays then (sessionsCount : ℚ) / (devDays : ℚ) else 0
  let avgSessionHours : ℚ := if 0 < sessionsCount then totalHours / (sessionsCount : ℚ) else 0
  let mostProductiveDayOfWeek := calculateMostProductiveDayOfWeek sessions
  let longestStreakDays := calculateLongestStreakDays sessions
  let minTimeBetweenSessionsMin := calculateMinTimeBetweenSessions sessions
  let allCommitGaps := allCommitGapsOf sessions
  let maxCommitGap := maxCommitGapOf sessions
  let avgMinutesBetweenCommits : Option ℚ :=
    if 0 < allCommitGaps.length then
      some (round2 ((allCommitGaps.foldl (· + ·) 0) / (allCommitGaps.length : ℚ)))
    else none
  let maxMinutesBetweenCommits : Option ℚ :=
    if 0 < maxCommitGap then some (round2 maxCommitGap) else none
  { totalHours := round2 totalHours
    sessionsCount := sessionsCount
    devDays := devDays
    totalCommits := totalCommits
    avgCommitsPerSession := round2 avgCommitsPerSession
    avgSessionsPerDay := round2 avgSessionsPerDay
    longestSessionHours := round2 longestSessionHours
    avgSessionHours := round2 avgSessionHours
    mostProductiveDayOfWeek := mostProductiveDayOfWeek
    longestStreakDays := longestStreakDays
    minTimeBetweenSessionsMin := minTimeBetweenSessionsMin
    avgMinutesBetweenCommits := avgMinutesBetweenCommits
    maxMinutesBetweenCommits := maxMinutesBetweenCommits }

/-- The session-grouping loop of `aggregateByAuthor` (lines 78-88), tracking
`authorLogin` the same way as `buildSessions`. -/
def groupSessionsByAuthor (sessions : List Session) :
    List (String × List Session × Option String) :=
  accumBy (fun s : Session => s.author)
    (fun s => ([s], s.authorLogin))
    (fun b s => (b.1 ++ [s], updLogin b.2 s.authorLogin))
    sessions

/-- `aggregateByAuthor` from `src/logic/aggregate.ts` (lines 76-98):
one record per author via the shared computation, sorted descending by
`totalHours` with the stable `Array.prototype.sort`. -/
def aggregateByAuthor (sessions : List Session) : List AuthorStats :=
  let records := (groupSessionsByAuthor sessions).map fun e =>
    { author := e.1, authorLogin := e.2.2, stats := calculateAggregateStats e.2.1 : AuthorStats }
  sortByLt (fun a b : AuthorStats => b.stats.totalHours < a.stats.totalHours) records

/-- The day-bucket update of `aggregateByDay` (lines 106-125). -/
def dayStep (d : DayStats) (s : Session) : DayStats :=
  { d with
    totalHours := d.totalHours + s.durationMinutes / 60
    sessionsCount := d.sessionsCount + 1
    totalCommits := d.totalCommits + s.commits.length
    authors := if s.author ∈ d.authors then d.authors else d.authors ++ [s.author] }

/-- The fresh day bucket of `aggregateByDay` (lines 117-123). -/
def dayInit (s : Session) : DayStats :=
  { date := s.date
    totalHours := s.durationMinutes / 60
    sessionsCount := 1
    totalCommits := s.commits.length
    authors := [s.author] }

/-- `aggregateByDay` from `src/logic/aggregate.ts` (lines 103-128): a `Map`
keyed by the session's `date`, then sorted ascending by date string
(`localeCompare`; the dates are fixed-width ISO strings, so this is the
code-unit order `strLt`). -/
def aggregateByDay (sessions : List Session) : List DayStats :=
  let dayMap := accumBy (fun s : Session => s.date) dayInit dayStep sessions
  sortByLt (fun a b : DayStats => strLt a.date b.date) (dayMap.map (fun e => e.2))

/-- `calculateTotals` from `src/logic/aggregate.ts` (lines 133-135). -/
def calculateTotals (sessions : List Session) : AggregateStats :=
  calculateAggregateStats sessions

/-! Lemmas about the stable insertion sort. -/

theorem insertByLt_perm (lt : α → α → Bool) (x : α) (l : List α) :
    (insertByLt lt x l).Perm (x :: l) := by
  induction l with
  | nil => simp [insertByLt]
  | cons y ys ih =>
    simp only [insertByLt]
    by_cases h : lt y x
    · simp only [h, if_pos]
      exact (ih.cons y).trans (List.Perm.swap x y ys)
    · simp [h]

theorem sortByLt_perm (lt : α → α → Bool) (l : List α) :
    (sortByLt lt l).Perm l := by
  induction l with
  | nil => simp [sortByLt]
  | cons x xs ih =>
    exact (insertByLt_perm lt x (sortByLt lt xs)).trans (ih.cons x)

theorem mem_sortByLt (lt : α → α → Bool) (l : List α) (a : α) :
    a ∈ sortByLt lt l ↔ a ∈ l :=
  (sortByLt_perm lt l).mem_iff

theorem insertByLt_pairwise (lt : α → α → Bool)
    (hasym : ∀ a b, lt a b = true → lt b a = false)
    (hcot : ∀ a b c, lt c a = true → lt c b = true ∨ lt b a = true)
    (x : α) (l : List α) (hl : l.Pairwise (fun a b => lt b a = false)) :
    (insertByLt lt x l).Pairwise (fun a b => lt b a = false) := by
  induction l with
  | nil => simp [insertByLt]
  | cons y ys ih =>
    rcases List.pairwise_cons.mp hl with ⟨hy, hys⟩
    simp only [insertByLt]
    by_cases h : lt y x
    · rw [if_pos h]
      refine List.pairwise_cons.mpr ⟨?_, ih hys⟩
      intro b hb
      rcases List.mem_cons.mp ((insertByLt_perm lt x ys).mem_iff.mp hb) with hbx | hbys
      · subst hbx; exact hasym y b h
      · exact hy b hbys
    · rw [if_neg h]
      refine List.pairwise_cons.mpr ⟨?_, hl⟩
      intro b hb
      rcases List.mem_cons.mp hb with hb | hb
      · subst hb; simpa using h
      · by_contra hbx
        rcases hcot x y b (by simpa using hbx) with hby | hyx
        · rw [hy b hb] at hby; exact Bool.noConfusion hby
        · simp [hyx] at h
    
theorem sortByLt_pairwise (lt : α → α → Bool)
    (hasym : ∀ a b, lt a b = true → lt b a = false)
    (hcot : ∀ a b c, lt c a = true → lt c b = true ∨ lt b a = true)
    (l : List α) :
    (sortByLt lt l).Pairwise (fun a b => lt b a = false) := by
  induction l with
  | nil => simp [sortByLt]
  | cons x xs ih => exact insertByLt_pairwise lt hasym hcot x _ ih

theorem insertByLt_filter (lt : α → α → Bool) (p : α → Bool) (x : α) (l : List α)
    (h : ∀ a, p a = true → p x = true → lt a x = false) :
    (insertByLt lt x l).filter p = if p x then x :: l.filter p else l.filter p := by
  induction l with
  | nil => by_cases hx : p x <;> simp [insertByLt, hx]
  | cons y ys ih =>
    simp only [insertByLt]
    by_cases hyx : lt y x
    · simp only [hyx, if_pos]
      by_cases hy : p y
      · have hx : p x = false := by
          by_contra hx
          have := h y hy (by simpa using hx)
          rw [this] at hyx; exact Bool.noConfusion hyx
        simp [List.filter_cons, hy, hx, ih, hx]
      · simp [List.filter_cons, hy, ih]
    · by_cases hx : p x <;> by_cases hy : p y <;>
        simp [hyx, List.filter_cons, hx, hy]

theorem sortByLt_filter (lt : α → α → Bool) (p : α → Bool) (l : List α)
    (h : ∀ a b, p a = true → p b = true → lt a b = false) :
    (sortByLt lt l).filter p = l.filter p := by
  induction l with
  | nil => rfl
  | cons x xs ih =>
    simp only [sortByLt]
    rw [insertByLt_filter lt p x _ (fun a ha hx => h a x ha hx)]
    by_cases hx : p x <;> simp [List.filter_cons, hx, ih]

/-! Lemmas about first-occurrence deduplication. -/

theorem mem_dedupFirst [DecidableEq α] (l : List α) (a : α) :
    a ∈ dedupFirst l ↔ a ∈ l := by
  induction l using dedupFirst.induct with
  | case1 => simp [dedupFirst]
  | case2 x xs ih =>
    simp only [dedupFirst, List.mem_cons, ih, List.mem_filter]
    by_cases hax : a = x
    · simp [hax]
    · simp [hax]

theorem nodup_dedupFirst [DecidableEq α] (l : List α) : (dedupFirst l).Nodup := by
  induction l using dedupFirst.induct with
  | case1 => simp [dedupFirst]
  | case2 x xs ih =>
    rw [dedupFirst]
    refine List.nodup_cons.mpr ⟨?_, ih⟩
    rw [mem_dedupFirst]
    simp

/-! Lemmas about the JS-Map association lists. -/

/-- Key-set update corresponding to one `upsert`. -/
def addUnseen [DecidableEq κ] (l : List κ) (k : κ) : List κ :=
  if k ∈ l then l else l ++ [k]

theorem upsert_keys [DecidableEq κ] (k : κ) (f : β → β) (i : β) (l : List (κ × β)) :
    (upsert k f i l).map Prod.fst = addUnseen (l.map Prod.fst) k := by
  induction l with
  | nil => simp [upsert, addUnseen]
  | cons e rest ih =>
    obtain ⟨a, b⟩ := e
    simp only [upsert]
    by_cases hak : a = k
    · subst hak
      simp [addUnseen]
    · rw [if_neg hak]
      simp only [List.map_cons, ih, addUnseen]
      by_cases hk : k ∈ rest.map Prod.fst
      · simp [hk, Ne.symm hak]
      · simp [hk, Ne.symm hak]

theorem dedupFirst_cons [DecidableEq α] (x : α) (xs : List α) :
    dedupFirst (x :: xs) = x :: dedupFirst (xs.filter (fun a => decide (a ≠ x))) := by
  rw [dedupFirst]

theorem foldl_addUnseen [DecidableEq κ] (ks : List κ) :
    ∀ acc : List κ,
      ks.foldl addUnseen acc = acc ++ dedupFirst (ks.filter (fun k => decide (k ∉ acc))) := by
  induction ks with
  | nil => intro acc; simp [dedupFirst]
  | cons k ks ih =>
    intro acc
    rw [List.foldl_cons]
    by_cases hk : k ∈ acc
    · have h1 : addUnseen acc k = acc := by simp [addUnseen, hk]
      have h2 : List.filter (fun a => decide (a ∉ acc)) (k :: ks)
          = List.filter (fun a => decide (a ∉ acc)) ks := by
        rw [List.filter_cons]
        simp [hk]
      rw [h1, h2, ih acc]
    · have h1 : addUnseen acc k = acc ++ [k] := by simp [addUnseen, hk]
      have h2 : List.filter (fun a => decide (a ∉ acc)) (k :: ks)
          = k :: List.filter (fun a => decide (a ∉ acc)) ks := by
        rw [List.filter_cons]
        simp [hk]
      rw [h1, h2, ih (acc ++ [k]), List.append_assoc]
      congr 1
      rw [List.singleton_append, dedupFirst_cons]
      congr 1
      rw [List.filter_filter]
      congr 1
      apply List.filter_congr
      intro a _
      by_cases hax : a = k
      · subst hax; simp
      · simp [hax, hk]

theorem accumBy_keys [DecidableEq κ] (key : α → κ) (init : α → β) (step : β → α → β)
    (xs : List α) :
    (accumBy key init step xs).map Prod.fst = dedupFirst (xs.map key) := by
  have h : ∀ (l : List α) (acc : List (κ × β)),
      (l.foldl (fun acc x => upsert (key x) (fun b => step b x) (init x) acc) acc).map Prod.fst
        = (l.map key).foldl addUnseen (acc.map Prod.fst) := by
    intro l
    induction l with
    | nil => intro acc; rfl
    | cons x l ih =>
      intro acc
      simp only [List.foldl_cons, List.map_cons, ih, upsert_keys]
  rw [accumBy, h, foldl_addUnseen]
  simp only [List.map_nil, List.nil_append]
  congr 1
  apply (List.filter_eq_self).mpr
  intro a _
  simp

theorem accumBy_keys_nodup [DecidableEq κ] (key : α → κ) (init : α → β) (step : β → α → β)
    (xs : List α) : ((accumBy key init step xs).map Prod.fst).Nodup := by
  rw [accumBy_keys]; exact nodup_dedupFirst _

theorem upsert_lookup [DecidableEq κ] (k k' : κ) (f : β → β) (i : β) (l : List (κ × β)) :
    List.lookup k' (upsert k f i l)
      = if k' = k then
          (match List.lookup k l with
           | some b => some (f b)
           | none => some i)
        else List.lookup k' l := by
  induction l with
  | nil =>
    by_cases h : k' = k
    · subst h; simp [upsert, List.lookup]
    · have hbeq : (k' == k) = false := by simpa using h
      simp [upsert, List.lookup, hbeq, h]
  | cons e rest ih =>
    obtain ⟨a, b⟩ := e
    simp only [upsert]
    by_cases hak : a = k
    · subst hak
      by_cases h : k' = a
      · subst h; simp [List.lookup]
      · have hbeq : (k' == a) = false := by simpa using h
        simp [List.lookup, hbeq, h]
    · rw [if_neg hak]
      by_cases h : k' = a
      · subst h
        have h2 : k' ≠ k := hak
        simp [List.lookup, h2]
      · have hbeq : (k' == a) = false := by simpa using h
        have hbeq2 : (k == a) = false := by
          simp only [beq_eq_false_iff_ne]
          exact fun hc => hak hc.symm
        simp only [List.lookup, hbeq, ih, hbeq2]

/-- The value an `accumBy` map holds at key `k`: the filtered items folded
with `step` from `init` of the first one. -/
def accumValue (key : α → κ) (init : α → β) (step : β → α → β) (k : κ)
    [DecidableEq κ] (xs : List α) : Option β :=
  match xs.filter (fun x => decide (key x = k)) with
  | [] => none
  | y :: ys => some (ys.foldl step (init y))

theorem lookup_accumBy [DecidableEq κ] (key : α → κ) (init : α → β) (step : β → α → β)
    (xs : List α) (k : κ) :
    List.lookup k (accumBy key init step xs) = accumValue key init step k xs := by
  have h : ∀ (l : List α) (acc : List (κ × β)),
      List.lookup k (l.foldl (fun acc x => upsert (key x) (fun b => step b x) (init x) acc) acc)
        = match List.lookup k acc with
          | some b => some ((l.filter (fun x => decide (key x = k))).foldl step b)
          | none => accumValue key init step k l := by
    intro l
    induction l with
    | nil =>
      intro acc
      match h : List.lookup k acc with
      | some b => simp [h, accumValue]
      | none => simp [h, accumValue]
    | cons x l ih =>
      intro acc
      rw [List.foldl_cons, ih, upsert_lookup]
      by_cases hk : k = key x
      · rw [if_pos hk, hk]
        have hfx : List.filter (fun x2 => decide (key x2 = key x)) (x :: l)
            = x :: List.filter (fun x2 => decide (key x2 = key x)) l := by
          rw [List.filter_cons]; simp
        cases h : List.lookup (key x) acc with
        | some b => simp only [hfx, List.foldl_cons]
        | none => simp only [accumValue, hfx, List.foldl_cons]
      · rw [if_neg hk]
        have hne : key x ≠ k := fun hc => hk (Eq.symm hc)
        have hfx : List.filter (fun x2 => decide (key x2 = k)) (x :: l)
            = List.filter (fun x2 => decide (key x2 = k)) l := by
          rw [List.filter_cons]
          simp [hne]
        cases h : List.lookup k acc with
        | some b => simp only [hfx]
        | none => simp only [accumValue, hfx]
  rw [accumBy, h]
  simp [accumValue]

theorem lookup_of_mem_nodup [DecidableEq κ] (l : List (κ × β)) (e : κ × β)
    (hmem : e ∈ l) (hnd : (l.map Prod.fst).Nodup) :
    List.lookup e.1 l = some e.2 := by
  induction l with
  | nil => cases hmem
  | cons a rest ih =>
    rcases List.mem_cons.mp hmem with he | he
    · subst he; simp [List.lookup]
    · have hnd2 := List.nodup_cons.mp hnd
      have hne : e.1 ≠ a.1 := by
        intro hc
        exact hnd2.1 (hc ▸ (List.mem_map_of_mem Prod.fst he))
      have hbeq : (e.1 == a.1) = false := by simpa using hne
      simp only [List.lookup, hbeq]
      exact ih he hnd2.2

/-- Every entry of an `accumBy` map is the fold of the items with its key. -/
theorem accumBy_entry [DecidableEq κ] (key : α → κ) (init : α → β) (step : β → α → β)
    (xs : List α) (e : κ × β) (he : e ∈ accumBy key init step xs) :
    accumValue key init step e.1 xs = some e.2 := by
  rw [← lookup_accumBy]
  exact lookup_of_mem_nodup _ e he (accumBy_keys_nodup key init step xs)

/-! Fold helper lemmas. -/

theorem foldl_add_eq (f : α → ℚ) (l : List α) :
    ∀ q0 : ℚ, l.foldl (fun s a => s + f a) q0 = q0 + (l.map f).sum := by
  induction l with
  | nil => intro q0; simp
  | cons x xs ih => intro q0; simp [ih]; ring

theorem foldl_add_nat_eq (f : α → ℕ) (l : List α) :
    ∀ n0 : ℕ, l.foldl (fun s a => s + f a) n0 = n0 + (l.map f).sum := by
  induction l with
  | nil => intro n0; simp
  | cons x xs ih => intro n0; simp [ih]; ring

theorem foldl_append_singleton (l : List α) :
    ∀ l0 : List α, l.foldl (fun acc a => acc ++ [a]) l0 = l0 ++ l := by
  induction l with
  | nil => intro l0; simp
  | cons x xs ih => intro l0; simp [ih]

theorem le_foldl_max [LinearOrder α] (l : List α) :
    ∀ m0 : α, m0 ≤ l.foldl max m0 ∧ ∀ v ∈ l, v ≤ l.foldl max m0 := by
  induction l with
  | nil => intro m0; simp
  | cons x xs ih =>
    intro m0
    rcases ih (max m0 x) with ⟨h1, h2⟩
    refine ⟨le_trans (le_max_left _ _) h1, ?_⟩
    intro v hv
    rcases List.mem_cons.mp hv with hv | hv
    · subst hv
      exact le_trans (le_max_right _ _) h1
    · exact h2 v hv

theorem foldl_max_mem [LinearOrder α] (l : List α) :
    ∀ m0 : α, l.foldl max m0 = m0 ∨ l.foldl max m0 ∈ l := by
  induction l with
  | nil => intro m0; simp
  | cons x xs ih =>
    intro m0
    rcases ih (max m0 x) with h | h
    · rcases max_choice m0 x with hm | hm
      · left; rw [List.foldl_cons, h, hm]
      · right; rw [List.foldl_cons, h, hm]; exact List.mem_cons_self x xs
    · right; exact List.mem_cons_of_mem x h

theorem foldl_pair_fst (g1 : γ₁ → α → γ₁) (g2 : γ₂ → α → γ₂) (l : List α) :
    ∀ p : γ₁ × γ₂,
      (l.foldl (fun b a => (g1 b.1 a, g2 b.2 a)) p).1 = l.foldl g1 p.1 := by
  induction l with
  | nil => intro p; rfl
  | cons x xs ih => intro p; simp only [List.foldl_cons]; exact ih _

/-- Each entry of the commit grouping holds exactly the input commits with
that author, in input order (and is nonempty). -/
theorem groupCommitsByAuthor_entry (commits : List Commit)
    (e : String × List Commit × Option String) (he : e ∈ groupCommitsByAuthor commits) :
    e.2.1 = commits.filter (fun c => decide (c.author = e.1)) ∧ e.2.1 ≠ [] := by
  rw [groupCommitsByAuthor] at he
  have h := accumBy_entry (fun c => c.author)
    (fun c => ([c], c.authorLogin))
    (fun b c => (b.1 ++ [c], updLogin b.2 c.authorLogin)) commits e he
  rw [accumValue] at h
  cases hf : commits.filter (fun c => decide (c.author = e.1)) with
  | nil => rw [hf] at h; cases h
  | cons y ys =>
    rw [hf] at h
    have h2 : e.2 = ys.foldl
        (fun b c => (b.1 ++ [c], updLogin b.2 c.authorLogin)) ([y], y.authorLogin) :=
      (Option.some_injective _ h).symm
    have h3 : e.2.1 = ys.foldl (fun l c => l ++ [c]) [y] := by
      rw [h2]
      exact foldl_pair_fst (fun l c => l ++ [c])
        (fun lg c => updLogin lg c.authorLogin) ys ([y], y.authorLogin)
    rw [h3, foldl_append_singleton]
    simp

/-- Each entry of the session grouping of `aggregateByAuthor` holds exactly
the sessions with that author, in input order (and is nonempty). -/
theorem groupSessionsByAuthor_entry (sessions : List Session)
    (e : String × List Session × Option String) (he : e ∈ groupSessionsByAuthor sessions) :
    e.2.1 = sessions.filter (fun s => decide (s.author = e.1)) ∧ e.2.1 ≠ [] := by
  rw [groupSessionsByAuthor] at he
  have h := accumBy_entry (fun s : Session => s.author)
    (fun s => ([s], s.authorLogin))
    (fun b s => (b.1 ++ [s], updLogin b.2 s.authorLogin)) sessions e he
  rw [accumValue] at h
  cases hf : sessions.filter (fun s => decide (s.author = e.1)) with
  | nil => rw [hf] at h; cases h
  | cons y ys =>
    rw [hf] at h
    have h2 : e.2 = ys.foldl
        (fun b s => (b.1 ++ [s], updLogin b.2 s.authorLogin)) ([y], y.authorLogin) :=
      (Option.some_injective _ h).symm
    have h3 : e.2.1 = ys.foldl (fun l s => l ++ [s]) [y] := by
      rw [h2]
      exact foldl_pair_fst (fun l s => l ++ [s])
        (fun lg s => updLogin lg s.authorLogin) ys ([y], y.authorLogin)
    rw [h3, foldl_append_singleton]
    simp

/-! Lemmas about the session sweep. -/

theorem sweepFrom_flatten (t : ℚ) (rest : List Commit) :
    ∀ (cur : List Commit) (lastC : Commit),
      (sweepFrom t cur lastC rest).flatten = cur ++ rest := by
  induction rest with
  | nil => intro cur lastC; simp [sweepFrom]
  | cons c rest ih =>
    intro cur lastC
    rw [sweepFrom]
    by_cases h : diffInMinutes c.date lastC.date ≤ t
    · rw [if_pos h, ih]
      simp
    · rw [if_neg h]
      simp only [List.flatten_cons, ih]
      simp

theorem splitSessions_flatten (t : ℚ) (l : List Commit) :
    (splitSessions t l).flatten = l := by
  cases l with
  | nil => rfl
  | cons c rest => rw [splitSessions, sweepFrom_flatten]; rfl

theorem sweepFrom_ne_nil (t : ℚ) (rest : List Commit) :
    ∀ (cur : List Commit) (lastC : Commit), cur ≠ [] →
      ∀ g ∈ sweepFrom t cur lastC rest, g ≠ [] := by
  induction rest with
  | nil =>
    intro cur lastC hcur g hg
    rw [sweepFrom] at hg
    rcases List.mem_singleton.mp hg with rfl
    exact hcur
  | cons c rest ih =>
    intro cur lastC hcur g hg
    rw [sweepFrom] at hg
    by_cases h : diffInMinutes c.date lastC.date ≤ t
    · rw [if_pos h] at hg
      exact ih (cur ++ [c]) c (by simp) g hg
    · rw [if_neg h] at hg
      rcases List.mem_cons.mp hg with rfl | hg
      · exact hcur
      · exact ih [c] c (by simp) g hg

/-- The first emitted group extends the open session `cur` at its end. -/
theorem sweepFrom_first_extends (t : ℚ) (rest : List Commit) :
    ∀ (cur : List Commit) (lastC : Commit),
      ∃ d gs, sweepFrom t cur lastC rest = (cur ++ d) :: gs := by
  induction rest with
  | nil =>
    intro cur lastC
    exact ⟨[], [], by simp [sweepFrom]⟩
  | cons c rest ih =>
    intro cur lastC
    rw [sweepFrom]
    by_cases h : diffInMinutes c.date lastC.date ≤ t
    · rw [if_pos h]
      rcases ih (cur ++ [c]) c with ⟨d, gs, hd⟩
      exact ⟨[c] ++ d, gs, by rw [hd]; simp⟩
    · rw [if_neg h]
      exact ⟨[], sweepFrom t [c] c rest, by simp⟩

/-- Within every emitted group, adjacent commits are at most `t` apart. -/
theorem sweepFrom_chain_gap (t : ℚ) (rest : List Commit) :
    ∀ (cur : List Commit) (lastC : Commit), cur ≠ [] →
      cur.getLast? = some lastC →
      List.Chain' (fun a b => diffInMinutes b.date a.date ≤ t) cur →
      ∀ g ∈ sweepFrom t cur lastC rest,
        List.Chain' (fun a b => diffInMinutes b.date a.date ≤ t) g := by
  induction rest with
  | nil =>
    intro cur lastC _ _ hchain g hg
    rcases List.mem_singleton.mp hg with rfl
    exact hchain
  | cons c rest ih =>
    intro cur lastC hcur hlast hchain g hg
    rw [sweepFrom] at hg
    by_cases h : diffInMinutes c.date lastC.date ≤ t
    · rw [if_pos h] at hg
      refine ih (cur ++ [c]) c (by simp) (by simp) ?_ g hg
      rw [List.chain'_append]
      refine ⟨hchain, List.chain'_singleton c, ?_⟩
      intro x hx y hy
      rw [hlast] at hx
      rcases Option.mem_some_iff.mp hx with rfl
      rcases Option.mem_some_iff.mp (by simpa using hy) with rfl
      exact h
    · rw [if_neg h] at hg
      rcases List.mem_cons.mp hg with rfl | hg
      · exact hchain
      · exact ih [c] c (by simp) (by simp) (List.chain'_singleton c) g hg

/-- Boundary relation between two adjacent emitted groups: the gap from the
last commit of the earlier group to the first commit of the later one
exceeds the timeout, and the timestamps are in order. -/
def groupBoundary (t : ℚ) (g1 g2 : List Commit) : Prop :=
  ∀ x ∈ g1.getLast?, ∀ y ∈ g2.head?,
    t < diffInMinutes y.date x.date ∧ x.date ≤ y.date

/-- Adjacent emitted groups are separated by more than the timeout. -/
theorem sweepFrom_chain_boundary (t : ℚ) (rest : List Commit) :
    ∀ (cur : List Commit) (lastC : Commit),
      cur.getLast? = some lastC →
      List.Chain' (fun a b : Commit => a.date ≤ b.date) (cur ++ rest) →
      List.Chain' (groupBoundary t) (sweepFrom t cur lastC rest) := by
  induction rest with
  | nil =>
    intro cur lastC _ _
    rw [sweepFrom]
    exact List.chain'_singleton cur
  | cons c rest ih =>
    intro cur lastC hlast hsorted
    rw [sweepFrom]
    by_cases h : diffInMinutes c.date lastC.date ≤ t
    · rw [if_pos h]
      refine ih (cur ++ [c]) c (by simp) ?_
      rw [List.append_assoc]
      exact hsorted
    · rw [if_neg h]
      have hsorted2 : List.Chain' (fun a b : Commit => a.date ≤ b.date) (c :: rest) :=
        (List.chain'_append.mp hsorted).2.1
      refine List.chain'_cons'.mpr ⟨?_, ih [c] c rfl hsorted2⟩
      intro g2 hg2
      rcases sweepFrom_first_extends t rest [c] c with ⟨d, gs, hfirst⟩
      rw [hfirst] at hg2
      rcases Option.mem_some_iff.mp (by simpa using hg2) with rfl
      intro x hx y hy
      rw [hlast] at hx
      rcases Option.mem_some_iff.mp hx with rfl
      rcases Option.mem_some_iff.mp (by simpa using hy) with rfl
      constructor
      · exact lt_of_not_ge (fun hge => h hge)
      · have hlink := (List.chain'_append.mp hsorted).2.2
        exact hlink lastC (by simp [Option.mem_def, hlast]) c (by simp)

/-- Every member of a flattened-sound group list inherits a `Chain'`. -/
theorem chain'_of_mem_flatten {R : α → α → Prop} (gs : List (List α))
    (hall : List.Chain' R gs.flatten) : ∀ g ∈ gs, List.Chain' R g := by
  induction gs with
  | nil => intro g hg; cases hg
  | cons g1 rest ih =>
    intro g hg
    rw [List.flatten_cons] at hall
    rcases List.chain'_append.mp hall with ⟨h1, h2, _⟩
    rcases List.mem_cons.mp hg with rfl | hg
    · exact h1
    · exact ih h2 g hg

/-- Structural characterisation of `buildSessions` membership: every emitted
session was created from one of the emitted commit groups of its author's
sorted commit stream. -/
theorem buildSessions_mem_struct (tzFmt : Int → String → String)
    (commits : List Commit) (config : SessionConfig) (s : Session)
    (hs : s ∈ buildSessions tzFmt commits config) :
    ∃ a lg cs g,
      (a, cs, lg) ∈ groupCommitsByAuthor commits ∧
      g ∈ splitSessions config.sessionTimeoutMin
            (sortByLt (fun a b => decide (a.date < b.date)) cs) ∧
      s = createSession tzFmt g a lg config.firstCommitBonusMin config.timezone := by
  rw [buildSessions] at hs
  rcases List.mem_flatMap.mp hs with ⟨e, he, hse⟩
  rcases List.mem_map.mp hse with ⟨g, hg, hcreate⟩
  exact ⟨e.1, e.2.2, e.2.1, g, he, hg, hcreate.symm⟩

/-! Field lemmas for `createSession`. -/

theorem createSession_commits (tzFmt : Int → String → String) (g : List Commit)
    (a : String) (lg : Option String) (bonus : ℚ) (tz : String) :
    (createSession tzFmt g a lg bonus tz).commits = g := rfl

theorem createSession_author (tzFmt : Int → String → String) (g : List Commit)
    (a : String) (lg : Option String) (bonus : ℚ) (tz : String) :
    (createSession tzFmt g a lg bonus tz).author = a := rfl

theorem createSession_authorLogin (tzFmt : Int → String → String) (g : List Commit)
    (a : String) (lg : Option String) (bonus : ℚ) (tz : String) :
    (createSession tzFmt g a lg bonus tz).authorLogin = lg := rfl

theorem createSession_startTime (tzFmt : Int → String → String) (g : List Commit)
    (a : String) (lg : Option String) (bonus : ℚ) (tz : String)
    (c0 : Commit) (h : g.head? = some c0) :
    (createSession tzFmt g a lg bonus tz).startTime = c0.date := by
  simp [createSession, h]

theorem createSession_endTime (tzFmt : Int → String → String) (g : List Commit)
    (a : String) (lg : Option String) (bonus : ℚ) (tz : String)
    (cn : Commit) (h : g.getLast? = some cn) :
    (createSession tzFmt g a lg bonus tz).endTime = cn.date := by
  simp [createSession, h]

theorem createSession_duration_single (tzFmt : Int → String → String) (g : List Commit)
    (a : String) (lg : Option String) (bonus : ℚ) (tz : String)
    (h : g.length = 1) :
    (createSession tzFmt g a lg bonus tz).durationMinutes = bonus := by
  simp [createSession, h]

theorem createSession_duration_multi (tzFmt : Int → String → String) (g : List Commit)
    (a : String) (lg : Option String) (bonus : ℚ) (tz : String)
    (h : g.length ≠ 1) :
    (createSession tzFmt g a lg bonus tz).durationMinutes
      = diffInMinutes (createSession tzFmt g a lg bonus tz).startTime
          (createSession tzFmt g a lg bonus tz).endTime + bonus := by
  simp [createSession, h]

theorem createSession_avg (tzFmt : Int → String → String) (g : List Commit)
    (a : String) (lg : Option String) (bonus : ℚ) (tz : String) :
    (createSession tzFmt g a lg bonus tz).avgMinutesBetweenCommits
      = if 1 < g.length then
          some (round2 (((adjacentGaps g).foldl (· + ·) 0) / (adjacentGaps g).length))
        else none := rfl

theorem createSession_max (tzFmt : Int → String → String) (g : List Commit)
    (a : String) (lg : Option String) (bonus : ℚ) (tz : String) :
    (createSession tzFmt g a lg bonus tz).maxMinutesBetweenCommits
      = if 1 < g.length then
          match adjacentGaps g with
          | [] => none
          | q :: qs => some (round2 (qs.foldl max q))
        else none := rfl

/-! Corollaries of the sweep lemmas for `splitSessions`. -/

theorem splitSessions_ne_nil (t : ℚ) (l : List Commit) :
    ∀ g ∈ splitSessions t l, g ≠ [] := by
  cases l with
  | nil => intro g hg; cases hg
  | cons c rest =>
    rw [splitSessions]
    exact sweepFrom_ne_nil t rest [c] c (by simp)

theorem splitSessions_chain_gap (t : ℚ) (l : List Commit) :
    ∀ g ∈ splitSessions t l,
      List.Chain' (fun a b => diffInMinutes b.date a.date ≤ t) g := by
  cases l with
  | nil => intro g hg; cases hg
  | cons c rest =>
    rw [splitSessions]
    exact sweepFrom_chain_gap t rest [c] c (by simp) rfl (List.chain'_singleton c)

theorem splitSessions_chain_boundary (t : ℚ) (l : List Commit)
    (hsorted : List.Chain' (fun a b : Commit => a.date ≤ b.date) l) :
    List.Chain' (groupBoundary t) (splitSessions t l) := by
  cases l with
  | nil => exact List.chain'_nil
  | cons c rest =>
    rw [splitSessions]
    exact sweepFrom_chain_boundary t rest [c] c rfl hsorted

/-- Transport a `Chain'` along a pointwise implication that may use a
property shared by all members of the list. -/
theorem chain'_imp_mem {R S : α → α → Prop} {P : α → Prop} :
    ∀ l : List α, List.Chain' R l → (∀ a ∈ l, P a) →
      (∀ a b, P a → P b → R a b → S a b) → List.Chain' S l := by
  intro l
  induction l with
  | nil => intro _ _ _; exact List.chain'_nil
  | cons x rest ih =>
    intro h hall himp
    rcases List.chain'_cons'.mp h with ⟨hx, hrest⟩
    refine List.chain'_cons'.mpr ⟨?_, ih hrest (fun a ha => hall a (List.mem_cons_of_mem x ha)) himp⟩
    intro y hy
    exact himp x y (hall x (List.mem_cons_self x rest))
      (hall y (List.mem_cons_of_mem x (List.mem_of_mem_head? hy))) (hx y hy)

/-- Filtering a `flatMap` whose blocks are `p`-homogeneous filters the blocks. -/
theorem filter_flatMap_blocks (l : List γ) (f : γ → List σ) (p : σ → Bool) (q : γ → Bool)
    (h : ∀ e ∈ l, ∀ s ∈ f e, p s = q e) :
    (l.flatMap f).filter p = (l.filter q).flatMap f := by
  induction l with
  | nil => rfl
  | cons e rest ih =>
    rw [List.flatMap_cons, List.filter_append, List.filter_cons]
    have hhom : ∀ s ∈ f e, p s = q e := h e (List.mem_cons_self e rest)
    have hrest : (rest.flatMap f).filter p = (rest.filter q).flatMap f :=
      ih (fun e2 he2 => h e2 (List.mem_cons_of_mem e he2))
    by_cases hq : q e = true
    · rw [hq]
      have : (f e).filter p = f e :=
        List.filter_eq_self.mpr (fun s hs => by rw [hhom s hs, hq])
      simp [this, hrest]
    · have hq2 : q e = false := by
        cases hqe : q e
        · rfl
        · exact absurd hqe hq
      rw [hq2]
      have : (f e).filter p = [] := by
        rw [List.filter_eq_nil_iff]
        intro s hs
        rw [hhom s hs, hq2]
        simp
      simp [this, hrest, hq2]

/-- A filter for one key of an association list with `Nodup` keys yields at
most one entry. -/
theorem filter_key_of_nodup (l : List (κ × γ)) [DecidableEq κ]
    (hnd : (l.map Prod.fst).Nodup) (a : κ) :
    l.filter (fun e => decide (e.1 = a)) = []
      ∨ ∃ e ∈ l, l.filter (fun e => decide (e.1 = a)) = [e] := by
  induction l with
  | nil => left; rfl
  | cons x rest ih =>
    rcases List.nodup_cons.mp hnd with ⟨hx, hrest⟩
    rw [List.filter_cons]
    by_cases hxa : x.1 = a
    · have hnone : rest.filter (fun e => decide (e.1 = a)) = [] := by
        rw [List.filter_eq_nil_iff]
        intro e he hdec
        apply hx
        rw [hxa]
        have : e.1 = a := by simpa using hdec
        rw [← this]
        exact List.mem_map_of_mem Prod.fst he
      right
      exact ⟨x, List.mem_cons_self x rest, by simp [hxa, hnone]⟩
    · rw [if_neg (by simpa using hxa)]
      rcases ih hrest with h | ⟨e, he, hfe⟩
      · left; exact h
      · right; exact ⟨e, List.mem_cons_of_mem x he, hfe⟩

/-- The stable sort by commit timestamp produces a nondecreasing list. -/
theorem sortByLt_date_sorted (cs : List Commit) :
    List.Chain' (fun a b : Commit => a.date ≤ b.date)
      (sortByLt (fun a b => decide (a.date < b.date)) cs) := by
  have hp := sortByLt_pairwise (fun a b : Commit => decide (a.date < b.date))
    (fun a b hab => by
      simp only [decide_eq_true_eq] at hab
      simpa using not_lt_of_gt hab)
    (fun a b c hca => by
      simp only [decide_eq_true_eq] at hca ⊢
      rcases lt_or_ge c.date b.date with h | h
      · left; simpa using h
      · right; simpa using lt_of_le_of_lt h hca)
    cs
  have hp2 : (sortByLt (fun a b => decide (a.date < b.date)) cs).Pairwise
      (fun a b : Commit => a.date ≤ b.date) := by
    refine hp.imp ?_
    intro a b hab
    simpa using hab
  exact hp2.chain'

theorem diffInMinutes_pos_ne (x y : Int) (t : ℚ) (ht : 0 ≤ t)
    (h : t < diffInMinutes y x) : x ≠ y := by
  intro hxy
  rw [hxy] at h
  simp [diffInMinutes] at h
  exact absurd (lt_of_le_of_lt ht h) (lt_irrefl 0)

/-- Within one author block of `buildSessions`, adjacent sessions are more
than the timeout apart and strictly time-ordered. -/
theorem buildSessions_block_chain (tzFmt : Int → String → String)
    (config : SessionConfig) (htimeout : 0 ≤ config.sessionTimeoutMin)
    (a : String) (lg : Option String) (cs : List Commit) :
    List.Chain' (fun s1 s2 : Session =>
        config.sessionTimeoutMin < diffInMinutes s2.startTime s1.endTime ∧
        s1.endTime < s2.startTime)
      ((splitSessions config.sessionTimeoutMin
          (sortByLt (fun a b => decide (a.date < b.date)) cs)).map
        (fun sc => createSession tzFmt sc a lg config.firstCommitBonusMin config.timezone)) := by
  set sorted := sortByLt (fun a b => decide (a.date < b.date)) cs with hsorted_def
  rw [List.chain'_map]
  refine chain'_imp_mem (P := fun g => g ≠ [])
    (splitSessions config.sessionTimeoutMin sorted)
    (splitSessions_chain_boundary _ _ (sortByLt_date_sorted cs))
    (splitSessions_ne_nil _ _)
    ?_
  intro g1 g2 h1 h2 hb
  obtain ⟨cn, hcn⟩ := Option.isSome_iff_exists.mp (List.getLast?_isSome.mpr h1)
  obtain ⟨c0, hc0⟩ := Option.isSome_iff_exists.mp (List.head?_isSome.mpr h2)
  rcases hb cn (by simp [Option.mem_def, hcn]) c0 (by simp [Option.mem_def, hc0]) with ⟨hgap, hle⟩
  rw [createSession_endTime tzFmt g1 a lg _ _ cn hcn,
    createSession_startTime tzFmt g2 a lg _ _ c0 hc0]
  refine ⟨hgap, ?_⟩
  exact lt_of_le_of_ne hle (diffInMinutes_pos_ne cn.date c0.date _ htimeout hgap)

/-- C1: every session built by `buildSessions` is nonempty, single-author,
sorted ascending by timestamp with adjacent commits at most the timeout
apart; and, per author, adjacent sessions are separated by strictly more
than the timeout (so the partition is maximal), for every input order. -/
theorem C1_buildSessions_partition_invariants
    (tzFmt : Int → String → String) (commits : List Commit) (config : SessionConfig)
    (htimeout : 0 ≤ config.sessionTimeoutMin) :
    (∀ s ∈ buildSessions tzFmt commits config,
      s.commits ≠ [] ∧
      (∀ c ∈ s.commits, c.author = s.author) ∧
      List.Chain' (fun a b : Commit => a.date ≤ b.date) s.commits ∧
      List.Chain' (fun a b : Commit =>
        diffInMinutes b.date a.date ≤ config.sessionTimeoutMin) s.commits) ∧
    (∀ author : String,
      List.Chain' (fun s1 s2 : Session =>
          config.sessionTimeoutMin < diffInMinutes s2.startTime s1.endTime ∧
          s1.endTime < s2.startTime)
        ((buildSessions tzFmt commits config).filter
          (fun s => decide (s.author = author)))) := by
  constructor
  · intro s hs
    rcases buildSessions_mem_struct tzFmt commits config s hs with
      ⟨a, lg, cs, g, hentry, hg, hcreate⟩
    have hgne : g ≠ [] := splitSessions_ne_nil _ _ g hg
    have hcommits : s.commits = g := by rw [hcreate, createSession_commits]
    have hauthor : s.author = a := by rw [hcreate, createSession_author]
    refine ⟨by rw [hcommits]; exact hgne, ?_, ?_, ?_⟩
    · intro c hc
      rw [hcommits] at hc
      have hcs : c ∈ sortByLt (fun a b => decide (a.date < b.date)) cs := by
        have hflat : c ∈ (splitSessions config.sessionTimeoutMin
            (sortByLt (fun a b => decide (a.date < b.date)) cs)).flatten :=
          List.mem_flatten.mpr ⟨g, hg, hc⟩
        rwa [splitSessions_flatten] at hflat
      have hcs2 : c ∈ cs := (mem_sortByLt _ _ _).mp hcs
      have hfilter := (groupCommitsByAuthor_entry commits (a, cs, lg) hentry).1
      simp only at hfilter
      rw [hfilter] at hcs2
      rcases List.mem_filter.mp hcs2 with ⟨_, hdec⟩
      rw [hauthor]
      simpa using hdec
    · rw [hcommits]
      exact chain'_of_mem_flatten _
        (by rw [splitSessions_flatten]; exact sortByLt_date_sorted cs) g hg
    · rw [hcommits]
      exact splitSessions_chain_gap _ _ g hg
  · intro author
    have hfilter : (buildSessions tzFmt commits config).filter
          (fun s => decide (s.author = author))
        = ((groupCommitsByAuthor commits).filter (fun e => decide (e.1 = author))).flatMap
            (fun e => (splitSessions config.sessionTimeoutMin
                (sortByLt (fun a b => decide (a.date < b.date)) e.2.1)).map
              (fun sc => createSession tzFmt sc e.1 e.2.2
                config.firstCommitBonusMin config.timezone)) := by
      rw [buildSessions]
      apply filter_flatMap_blocks
      intro e _ s hs
      rcases List.mem_map.mp hs with ⟨g, _, hcreate⟩
      rw [← hcreate, createSession_author]
    rw [hfilter]
    rcases filter_key_of_nodup (groupCommitsByAuthor commits)
        (accumBy_keys_nodup _ _ _ _) author with hnil | ⟨e, _, hone⟩
    · rw [hnil]
      exact List.chain'_nil
    · rw [hone]
      simp only [List.flatMap_cons, List.flatMap_nil, List.append_nil]
      exact buildSessions_block_chain tzFmt config htimeout e.1 e.2.2 e.2.1

/-- Witness for C1 at a concrete two-author commit list with timeout 45. -/
theorem C1_buildSessions_partition_invariants_witness :
    ((0:ℚ) ≤ (45:ℚ)) ∧
    ((∀ s ∈ buildSessions (fun _ _ => "")
        [⟨"s1", "alice", none, 0⟩, ⟨"s2", "bob", none, 1200000⟩,
         ⟨"s3", "alice", none, 2700000⟩] ⟨45, 15, "UTC"⟩,
      s.commits ≠ [] ∧
      (∀ c ∈ s.commits, c.author = s.author) ∧
      List.Chain' (fun a b : Commit => a.date ≤ b.date) s.commits ∧
      List.Chain' (fun a b : Commit =>
        diffInMinutes b.date a.date ≤ (45:ℚ)) s.commits) ∧
    (∀ author : String,
      List.Chain' (fun s1 s2 : Session =>
          (45:ℚ) < diffInMinutes s2.startTime s1.endTime ∧
          s1.endTime < s2.startTime)
        ((buildSessions (fun _ _ => "")
            [⟨"s1", "alice", none, 0⟩, ⟨"s2", "bob", none, 1200000⟩,
             ⟨"s3", "alice", none, 2700000⟩] ⟨45, 15, "UTC"⟩).filter
          (fun s => decide (s.author = author))))) :=
  ⟨by norm_num,
    C1_buildSessions_partition_invariants (fun _ _ => "")
      [⟨"s1", "alice", none, 0⟩, ⟨"s2", "bob", none, 1200000⟩,
       ⟨"s3", "alice", none, 2700000⟩] ⟨45, 15, "UTC"⟩ (by norm_num)⟩

theorem count_flatMap [DecidableEq α] (l : List γ) (f : γ → List α) (a : α) :
    (l.flatMap f).count a = (l.map (fun e => (f e).count a)).sum := by
  induction l with
  | nil => rfl
  | cons e rest ih =>
    rw [List.flatMap_cons, List.count_append, ih, List.map_cons, List.sum_cons]

theorem sum_map_ite_key [DecidableEq κ] (k : κ) (n : ℕ) (F : κ × γ → ℕ) :
    ∀ l : List (κ × γ), (l.map Prod.fst).Nodup →
      (∀ e ∈ l, F e = if e.1 = k then n else 0) →
      (l.map F).sum = if k ∈ l.map Prod.fst then n else 0 := by
  intro l
  induction l with
  | nil => intro _ _; simp
  | cons e rest ih =>
    intro hnd hF
    rcases List.nodup_cons.mp hnd with ⟨he, hrest⟩
    rw [List.map_cons, List.sum_cons, hF e (List.mem_cons_self e rest),
      ih hrest (fun e2 he2 => hF e2 (List.mem_cons_of_mem e he2))]
    by_cases hek : e.1 = k
    · have hk2 : k ∉ rest.map Prod.fst := by rw [← hek]; exact he
      simp [hek, hk2]
    · rw [if_neg hek, Nat.zero_add]
      have hcons : k ∈ (e :: rest).map Prod.fst ↔ k ∈ rest.map Prod.fst := by
        rw [List.map_cons, List.mem_cons]
        constructor
        · rintro (h | h)
          · exact absurd (Eq.symm h) hek
          · exact h
        · exact Or.inr
      by_cases hk : k ∈ rest.map Prod.fst
      · rw [if_pos hk, if_pos (hcons.mpr hk)]
      · rw [if_neg hk, if_neg (fun hc => hk (hcons.mp hc))]

theorem perm_flatMap_of_perm (l : List γ) (f g : γ → List α)
    (h : ∀ e ∈ l, (f e).Perm (g e)) : (l.flatMap f).Perm (l.flatMap g) := by
  induction l with
  | nil => exact List.Perm.refl _
  | cons e rest ih =>
    rw [List.flatMap_cons, List.flatMap_cons]
    exact (h e (List.mem_cons_self e rest)).append
      (ih (fun e2 he2 => h e2 (List.mem_cons_of_mem e he2)))

/-- The author partition holds every input commit exactly once (as a multiset). -/
theorem groupCommitsByAuthor_perm (commits : List Commit) :
    ((groupCommitsByAuthor commits).flatMap (fun e => e.2.1)).Perm commits := by
  apply List.perm_iff_count.mpr
  intro a
  rw [count_flatMap]
  have hnd : ((groupCommitsByAuthor commits).map Prod.fst).Nodup :=
    accumBy_keys_nodup (fun c : Commit => c.author)
      (fun c => ([c], c.authorLogin))
      (fun b c => (b.1 ++ [c], updLogin b.2 c.authorLogin)) commits
  have hcongr : ((groupCommitsByAuthor commits).map (fun e => (e.2.1).count a))
      = ((groupCommitsByAuthor commits).map
          (fun e => (commits.filter (fun c => decide (c.author = e.1))).count a)) := by
    apply List.map_congr_left
    intro e he
    rw [(groupCommitsByAuthor_entry commits e he).1]
  have hmap := sum_map_ite_key (γ := List Commit × Option String) a.author (commits.count a)
    (fun e => (commits.filter (fun c => decide (c.author = e.1))).count a)
    (groupCommitsByAuthor commits) hnd ?_
  · rw [hcongr, hmap]
    have hkeys : (groupCommitsByAuthor commits).map Prod.fst
        = dedupFirst (commits.map (fun c => c.author)) :=
      accumBy_keys (fun c : Commit => c.author)
        (fun c => ([c], c.authorLogin))
        (fun b c => (b.1 ++ [c], updLogin b.2 c.authorLogin)) commits
    rw [hkeys]
    by_cases hmem : a ∈ commits
    · rw [if_pos ((mem_dedupFirst _ _).mpr (List.mem_map_of_mem (fun c => c.author) hmem))]
    · rw [List.count_eq_zero_of_not_mem hmem]
      by_cases h2 : a.author ∈ dedupFirst (commits.map (fun c => c.author)) <;> simp [h2]
  · intro e _
    by_cases hp : e.1 = a.author
    · rw [if_pos hp]
      apply List.count_filter
      simpa using hp.symm
    · rw [if_neg hp]
      apply List.count_eq_zero_of_not_mem
      intro hmem
      have h3 : a.author = e.1 := by simpa using (List.mem_filter.mp hmem).2
      exact hp h3.symm

/-- C10: the commits in the sessions of `buildSessions` are exactly the
input commits as a multiset, and the session commit counts sum to the
input length. -/
theorem C10_buildSessions_commit_multiset_preserved
    (tzFmt : Int → String → String) (commits : List Commit) (config : SessionConfig) :
    ((buildSessions tzFmt commits config).flatMap (fun s => s.commits)).Perm commits ∧
    ((buildSessions tzFmt commits config).map (fun s => s.commits.length)).sum
      = commits.length := by
  have hperm : ((buildSessions tzFmt commits config).flatMap (fun s => s.commits)).Perm commits := by
    rw [buildSessions, List.flatMap_assoc]
    have hinner : ∀ e ∈ groupCommitsByAuthor commits,
        (((splitSessions config.sessionTimeoutMin
            (sortByLt (fun a b => decide (a.date < b.date)) e.2.1)).map
          (fun sc => createSession tzFmt sc e.1 e.2.2
            config.firstCommitBonusMin config.timezone)).flatMap
          (fun s => s.commits)).Perm e.2.1 := by
      intro e _
      rw [List.flatMap_map]
      have heq : ((splitSessions config.sessionTimeoutMin
          (sortByLt (fun a b => decide (a.date < b.date)) e.2.1)).flatMap
            (fun sc => (createSession tzFmt sc e.1 e.2.2
              config.firstCommitBonusMin config.timezone).commits))
          = sortByLt (fun a b => decide (a.date < b.date)) e.2.1 := by
        have hfun : (fun sc => (createSession tzFmt sc e.1 e.2.2
            config.firstCommitBonusMin config.timezone).commits)
            = (id : List Commit → List Commit) := by
          funext sc
          rw [createSession_commits]
          rfl
        rw [hfun, List.flatMap_id, splitSessions_flatten]
      rw [heq]
      exact sortByLt_perm _ _
    exact (perm_flatMap_of_perm _ _ _ hinner).trans (groupCommitsByAuthor_perm commits)
  refine ⟨hperm, ?_⟩
  have hlen : ((buildSessions tzFmt commits config).flatMap (fun s => s.commits)).length
      = commits.length := hperm.length_eq
  rw [List.length_flatMap] at hlen
  simpa using hlen

theorem foldl_plus_eq_sum (l : List ℚ) : ∀ q0 : ℚ, l.foldl (· + ·) q0 = q0 + l.sum := by
  induction l with
  | nil => intro q0; simp
  | cons x xs ih => intro q0; simp [ih]; ring

theorem head_date_le_getLast_date :
    ∀ (g : List Commit), List.Chain' (fun a b : Commit => a.date ≤ b.date) g →
      ∀ c0 cn, g.head? = some c0 → g.getLast? = some cn → c0.date ≤ cn.date := by
  intro g
  induction g with
  | nil => intro _ c0 cn h0 _; cases h0
  | cons x rest ih =>
    intro hchain c0 cn h0 hn
    rcases Option.some_injective _ h0.symm with rfl
    cases rest with
    | nil =>
      have : cn = c0 := by
        have h2 : (([c0] : List Commit)).getLast? = some c0 := rfl
        rw [h2] at hn
        exact (Option.some_injective _ hn.symm)
      rw [this]
    | cons y rest2 =>
      rcases List.chain'_cons.mp hchain with ⟨hxy, hchain2⟩
      have hn2 : (y :: rest2).getLast? = some cn := by
        rwa [List.getLast?_cons_cons] at hn
      exact le_trans hxy (ih hchain2 y cn rfl hn2)

/-- Internal summary of every session emitted by `buildSessions`: its commit
list is nonempty, sorted, starts the session's fields, and the derived
fields are those of `createSession` of it. -/
theorem buildSessions_session_shape (tzFmt : Int → String → String)
    (commits : List Commit) (config : SessionConfig) (s : Session)
    (hs : s ∈ buildSessions tzFmt commits config) :
    s.commits ≠ [] ∧
    List.Chain' (fun a b : Commit => a.date ≤ b.date) s.commits ∧
    (∀ c0, s.commits.head? = some c0 → s.startTime = c0.date) ∧
    (∀ cn, s.commits.getLast? = some cn → s.endTime = cn.date) ∧
    (s.commits.length = 1 → s.durationMinutes = config.firstCommitBonusMin) ∧
    (s.commits.length ≠ 1 →
      s.durationMinutes = diffInMinutes s.startTime s.endTime + config.firstCommitBonusMin) ∧
    s.avgMinutesBetweenCommits
      = (if 1 < s.commits.length then
          some (round2 (((adjacentGaps s.commits).foldl (· + ·) 0)
            / ((adjacentGaps s.commits).length : ℚ)))
        else none) ∧
    s.maxMinutesBetweenCommits
      = (if 1 < s.commits.length then
          match adjacentGaps s.commits with
          | [] => none
          | q :: qs => some (round2 (qs.foldl max q))
        else none) := by
  rcases buildSessions_mem_struct tzFmt commits config s hs with
    ⟨a, lg, cs, g, _, hg, hcreate⟩
  have hcommits : s.commits = g := by rw [hcreate, createSession_commits]
  have hne : s.commits ≠ [] := by rw [hcommits]; exact splitSessions_ne_nil _ _ g hg
  have hchain : List.Chain' (fun a b : Commit => a.date ≤ b.date) s.commits := by
    rw [hcommits]
    exact chain'_of_mem_flatten _
      (by rw [splitSessions_flatten]; exact sortByLt_date_sorted cs) g hg
  refine ⟨hne, hchain, ?_, ?_, ?_, ?_, ?_, ?_⟩
  · intro c0 h0
    rw [hcommits] at h0
    rw [hcreate]
    exact createSession_startTime _ _ _ _ _ _ c0 h0
  · intro cn hn
    rw [hcommits] at hn
    rw [hcreate]
    exact createSession_endTime _ _ _ _ _ _ cn hn
  · intro h1
    rw [hcommits] at h1
    rw [hcreate]
    exact createSession_duration_single _ _ _ _ _ _ h1
  · intro h1
    rw [hcommits] at h1
    rw [hcreate]
    exact createSession_duration_multi _ _ _ _ _ _ h1
  · rw [hcommits, hcreate]
    exact createSession_avg _ _ _ _ _ _
  · rw [hcommits, hcreate]
    exact createSession_max _ _ _ _ _ _

/-- C3: duration of every built session is the first-to-last elapsed time
plus the bonus, the bonus alone for single-commit sessions. -/
theorem C3_session_duration (tzFmt : Int → String → String)
    (commits : List Commit) (config : SessionConfig) :
    ∀ s ∈ buildSessions tzFmt commits config,
      (s.commits.length = 1 → s.durationMinutes = config.firstCommitBonusMin) ∧
      (2 ≤ s.commits.length →
        ∀ c0 cn, s.commits.head? = some c0 → s.commits.getLast? = some cn →
          s.durationMinutes
            = ((cn.date - c0.date : ℤ) : ℚ) / 60000 + config.firstCommitBonusMin) := by
  intro s hs
  rcases buildSessions_session_shape tzFmt commits config s hs with
    ⟨_, hchain, hstart, hend, hdur1, hdurn, _, _⟩
  refine ⟨hdur1, ?_⟩
  intro h2 c0 cn h0 hn
  have hne1 : s.commits.length ≠ 1 := by omega
  rw [hdurn hne1, hstart c0 h0, hend cn hn]
  have hle : c0.date ≤ cn.date := head_date_le_getLast_date s.commits hchain c0 cn h0 hn
  have habs : ((c0.date - cn.date).natAbs : ℚ) = ((cn.date - c0.date : ℤ) : ℚ) := by
    have h3 : (c0.date - cn.date).natAbs = (cn.date - c0.date).natAbs := by
      rw [← Int.natAbs_neg, neg_sub]
    rw [h3]
    have h4 : (0 : ℤ) ≤ cn.date - c0.date := by omega
    rw [Int.cast_natAbs]
    exact congrArg (fun z : ℤ => (z : ℚ)) (abs_of_nonneg h4)
  rw [diffInMinutes, habs]

/-- C4: the per-session commit-gap metrics are defined exactly for
multi-commit sessions, as the rounded mean and maximum adjacent gap. -/
theorem C4_session_gap_metrics (tzFmt : Int → String → String)
    (commits : List Commit) (config : SessionConfig) :
    ∀ s ∈ buildSessions tzFmt commits config,
      (s.avgMinutesBetweenCommits.isSome ↔ 2 ≤ s.commits.length) ∧
      (s.maxMinutesBetweenCommits.isSome ↔ 2 ≤ s.commits.length) ∧
      (2 ≤ s.commits.length →
        s.avgMinutesBetweenCommits
          = some (round2 ((adjacentGaps s.commits).sum
              / ((adjacentGaps s.commits).length : ℚ))) ∧
        ∃ m ∈ adjacentGaps s.commits,
          (∀ x ∈ adjacentGaps s.commits, x ≤ m) ∧
          s.maxMinutesBetweenCommits = some (round2 m)) := by
  intro s hs
  rcases buildSessions_session_shape tzFmt commits config s hs with
    ⟨hne, _, _, _, _, _, havg, hmax⟩
  have hlen_gaps : (adjacentGaps s.commits).length + 1 = s.commits.length := by
    rw [adjacentGaps, List.length_map, List.length_zip]
    cases hc : s.commits with
    | nil => exact absurd hc hne
    | cons x rest => simp [Nat.min_def]
  constructor
  · rw [havg]
    by_cases h : 1 < s.commits.length
    · simp [h]; omega
    · simp [h]; omega
  constructor
  · rw [hmax]
    by_cases h : 1 < s.commits.length
    · rcases hg : adjacentGaps s.commits with _ | ⟨q, qs⟩
      · exfalso
        rw [hg] at hlen_gaps
        simp at hlen_gaps
        omega
      · simp [h, hg]; omega
    · simp [h]; omega
  · intro h2
    have h1 : 1 < s.commits.length := by omega
    constructor
    · rw [havg, if_pos h1]
      congr 2
      rw [foldl_plus_eq_sum, zero_add]
    · rcases hg : adjacentGaps s.commits with _ | ⟨q, qs⟩
      · exfalso
        rw [hg] at hlen_gaps
        simp at hlen_gaps
        omega
      · refine ⟨qs.foldl max q, ?_, ?_, ?_⟩
        · rcases foldl_max_mem qs q with h | h
          · rw [h]; exact List.mem_cons_self _ _
          · exact List.mem_cons_of_mem _ h
        · intro x hx
          rcases List.mem_cons.mp hx with rfl | hx
          · exact (le_foldl_max qs x).1
          · exact (le_foldl_max qs q).2 x hx
        · rw [hmax, if_pos h1, hg]

/-! Concrete fixtures used by the evaluation witnesses. -/

/-- A trivial date formatter standing in for `toISODate` in witnesses. -/
def tzF0 : Int → String → String := fun _ _ => ""

def commitA : Commit := ⟨"a1", "alice", none, 0⟩

/-- 30 minutes after `commitA`. -/
def commitB : Commit := ⟨"a2", "alice", none, 1800000⟩

/-- 45 minutes after `commitA`. -/
def commitC45 : Commit := ⟨"a3", "alice", none, 2700000⟩

/-- 46 minutes after `commitA`. -/
def commitC46 : Commit := ⟨"a4", "alice", none, 2760000⟩

def cfg45 : SessionConfig := ⟨45, 15, "UTC"⟩

/-- The one session `buildSessions` builds from `[commitA, commitB]`. -/
def sessAB : Session :=
  ⟨"alice", none, [commitA, commitB], 0, 1800000, 45, "", some 30, some 30⟩

theorem buildSessions_fixtureAB :
    buildSessions tzF0 [commitA, commitB] cfg45 = [sessAB] := by
  norm_num [buildSessions, groupCommitsByAuthor, accumBy, upsert, sortByLt, insertByLt,
    splitSessions, sweepFrom, diffInMinutes, createSession, adjacentGaps, round2, jsRound,
    Rat.floor_def', updLogin, jsTruthyStr, tzF0, commitA, commitB, cfg45, sessAB]

/-- Witness for C3: two commits 30 minutes apart with bonus 15 give one
session whose duration is the elapsed 30 minutes plus the bonus, i.e. 45. -/
theorem C3_session_duration_witness :
    sessAB ∈ buildSessions tzF0 [commitA, commitB] cfg45 ∧
    2 ≤ sessAB.commits.length ∧
    sessAB.commits.head? = some commitA ∧
    sessAB.commits.getLast? = some commitB ∧
    sessAB.durationMinutes
      = ((commitB.date - commitA.date : ℤ) : ℚ) / 60000 + cfg45.firstCommitBonusMin ∧
    sessAB.durationMinutes = 45 := by
  have hmem : sessAB ∈ buildSessions tzF0 [commitA, commitB] cfg45 := by
    rw [buildSessions_fixtureAB]
    exact List.mem_singleton_self _
  refine ⟨hmem, by norm_num [sessAB], rfl, rfl, ?_, rfl⟩
  exact (C3_session_duration tzF0 [commitA, commitB] cfg45 sessAB hmem).2
    (by norm_num [sessAB]) commitA commitB rfl rfl

/-- Witness for C4: the session of two commits 30 minutes apart carries
defined gap metrics equal to the rounded mean and maximum gap, both 30. -/
theorem C4_session_gap_metrics_witness :
    sessAB ∈ buildSessions tzF0 [commitA, commitB] cfg45 ∧
    2 ≤ sessAB.commits.length ∧
    sessAB.avgMinutesBetweenCommits
      = some (round2 ((adjacentGaps sessAB.commits).sum
          / ((adjacentGaps sessAB.commits).length : ℚ))) ∧
    (∃ m ∈ adjacentGaps sessAB.commits,
      (∀ x ∈ adjacentGaps sessAB.commits, x ≤ m) ∧
      sessAB.maxMinutesBetweenCommits = some (round2 m)) ∧
    sessAB.avgMinutesBetweenCommits = some 30 ∧
    sessAB.maxMinutesBetweenCommits = some 30 := by
  have hmem : sessAB ∈ buildSessions tzF0 [commitA, commitB] cfg45 := by
    rw [buildSessions_fixtureAB]
    exact List.mem_singleton_self _
  have h2 : 2 ≤ sessAB.commits.length := by norm_num [sessAB]
  refine ⟨hmem, h2, ?_, ?_, rfl, rfl⟩
  · exact ((C4_session_gap_metrics tzF0 [commitA, commitB] cfg45 sessAB hmem).2.2 h2).1
  · exact ((C4_session_gap_metrics tzF0 [commitA, commitB] cfg45 sessAB hmem).2.2 h2).2

/-- C2 (amended): the session-split boundary is inclusive — for a
same-author chronological pair, a gap at most the timeout (in particular a
gap exactly equal to it) keeps one session, a strictly larger gap splits;
identical timestamps are a zero gap and merge whenever the timeout is
nonnegative (under a negative timeout the zero gap still splits). -/
theorem C2_session_boundary_inclusive (tzFmt : Int → String → String)
    (c1 c2 : Commit) (config : SessionConfig)
    (hauth : c2.author = c1.author) (hdate : c1.date ≤ c2.date) :
    (diffInMinutes c2.date c1.date ≤ config.sessionTimeoutMin →
      (buildSessions tzFmt [c1, c2] config).map (fun s => s.commits) = [[c1, c2]]) ∧
    (config.sessionTimeoutMin < diffInMinutes c2.date c1.date →
      (buildSessions tzFmt [c1, c2] config).map (fun s => s.commits) = [[c1], [c2]]) ∧
    (c1.date = c2.date → 0 ≤ config.sessionTimeoutMin →
      (buildSessions tzFmt [c1, c2] config).map (fun s => s.commits) = [[c1, c2]]) := by
  have hgroups : groupCommitsByAuthor [c1, c2]
      = [(c1.author, ([c1, c2], updLogin c1.authorLogin c2.authorLogin))] := by
    simp [groupCommitsByAuthor, accumBy, upsert, hauth]
  have hnl : ¬ (c2.date < c1.date) := not_lt.mpr hdate
  have hsorted : sortByLt (fun a b => decide (a.date < b.date)) [c1, c2] = [c1, c2] := by
    simp [sortByLt, insertByLt, hnl]
  have hbuild : ∀ gs, splitSessions config.sessionTimeoutMin [c1, c2] = gs →
      (buildSessions tzFmt [c1, c2] config).map (fun s => s.commits) = gs := by
    intro gs hgs
    rw [buildSessions, hgroups]
    simp only [List.flatMap_cons, List.flatMap_nil, List.append_nil, hsorted, hgs,
      List.map_map]
    have : ((fun s : Session => s.commits) ∘
        (fun sc => createSession tzFmt sc c1.author (updLogin c1.authorLogin c2.authorLogin)
          config.firstCommitBonusMin config.timezone)) = fun sc => sc := by
      funext sc
      simp [Function.comp, createSession_commits]
    rw [this, List.map_id']
  have ha : diffInMinutes c2.date c1.date ≤ config.sessionTimeoutMin →
      (buildSessions tzFmt [c1, c2] config).map (fun s => s.commits) = [[c1, c2]] := by
    intro hgap
    exact hbuild [[c1, c2]] (by simp [splitSessions, sweepFrom, hgap])
  refine ⟨ha, ?_, ?_⟩
  · intro hgap
    have hgap2 : ¬ (diffInMinutes c2.date c1.date ≤ config.sessionTimeoutMin) :=
      not_le.mpr hgap
    exact hbuild [[c1], [c2]] (by simp [splitSessions, sweepFrom, hgap2])
  · intro heq ht
    apply ha
    have hzero : diffInMinutes c2.date c1.date = 0 := by
      simp [diffInMinutes, heq]
    rw [hzero]
    exact ht

/-- Counterexample to C2 as stated: with a negative timeout (a config the
claim quantifies over), two same-author commits sharing one timestamp are
not merged — they produce two singleton sessions. -/
theorem C2_counterexample_negative_timeout :
    (buildSessions (fun _ _ => "") [⟨"x1", "a", none, 0⟩, ⟨"x2", "a", none, 0⟩]
        ⟨-1, 15, "UTC"⟩).map (fun s => s.commits)
      = [[⟨"x1", "a", none, 0⟩], [⟨"x2", "a", none, 0⟩]] ∧
    (⟨"x1", "a", none, 0⟩ : Commit).date = (⟨"x2", "a", none, 0⟩ : Commit).date := by
  refine ⟨?_, rfl⟩
  norm_num [buildSessions, groupCommitsByAuthor, accumBy, upsert, sortByLt, insertByLt,
    splitSessions, sweepFrom, diffInMinutes, createSession, adjacentGaps, round2, jsRound,
    Rat.floor_def', updLogin, jsTruthyStr]

/-- Witness for C2 at timeout 45: a 45-minute gap keeps one session of two
commits, a 46-minute gap splits into two singleton sessions. -/
theorem C2_session_boundary_inclusive_witness :
    ((buildSessions tzF0 [commitA, commitC45] cfg45).map (fun s => s.commits)
      = [[commitA, commitC45]]) ∧
    ((buildSessions tzF0 [commitA, commitC46] cfg45).map (fun s => s.commits)
      = [[commitA], [commitC46]]) := by
  constructor
  · exact (C2_session_boundary_inclusive tzF0 commitA commitC45 cfg45 rfl
      (by norm_num [commitA, commitC45])).1
      (by norm_num [commitA, commitC45, cfg45, diffInMinutes])
  · exact (C2_session_boundary_inclusive tzF0 commitA commitC46 cfg45 rfl
      (by norm_num [commitA, commitC46])).2.1
      (by norm_num [commitA, commitC46, cfg45, diffInMinutes])

/-! Projections of `calculateAggregateStats`. -/

theorem calcAgg_avgGaps (sessions : List Session) :
    (calculateAggregateStats sessions).avgMinutesBetweenCommits
      = if 0 < (allCommitGapsOf sessions).length then
          some (round2 (((allCommitGapsOf sessions).foldl (· + ·) 0)
            / ((allCommitGapsOf sessions).length : ℚ)))
        else none := rfl

theorem calcAgg_maxGaps (sessions : List Session) :
    (calculateAggregateStats sessions).maxMinutesBetweenCommits
      = if 0 < maxCommitGapOf sessions then some (round2 (maxCommitGapOf sessions))
        else none := rfl

theorem calcAgg_mostProductive (sessions : List Session) :
    (calculateAggregateStats sessions).mostProductiveDayOfWeek
      = calculateMostProductiveDayOfWeek sessions := rfl

theorem calcAgg_minTime (sessions : List Session) :
    (calculateAggregateStats sessions).minTimeBetweenSessionsMin
      = calculateMinTimeBetweenSessions sessions := rfl

/-- The aggregate-level gap multiset as the specification words it: for each
multi-commit session, its per-session average replicated once per gap
(`commitCount - 1` copies). -/
def specAvgGapMultiset (sessions : List Session) : List ℚ :=
  (sessions.filter (fun s => decide (2 ≤ s.commits.length))).flatMap fun s =>
    match s.avgMinutesBetweenCommits with
    | some a => List.replicate (s.commits.length - 1) a
    | none => []

theorem flatMap_filter_eq (l : List α) (p : α → Bool) (f : α → List γ)
    (h : ∀ x ∈ l, p x = false → f x = []) :
    (l.filter p).flatMap f = l.flatMap f := by
  induction l with
  | nil => rfl
  | cons x rest ih =>
    rw [List.filter_cons, List.flatMap_cons]
    have hrest := ih (fun y hy => h y (List.mem_cons_of_mem x hy))
    by_cases hp : p x = true
    · rw [if_pos (by rw [hp]), List.flatMap_cons, hrest]
    · have hp2 : p x = false := by
        cases hpx : p x
        · rfl
        · exact absurd hpx hp
      rw [if_neg (by simp [hp2]), hrest, h x (List.mem_cons_self x rest) hp2, List.nil_append]

/-- Under the per-session well-formedness of C4 (gap average defined iff
multi-commit), the code's replicated gap list equals the specification's. -/
theorem allCommitGapsOf_eq_spec (sessions : List Session)
    (hwf : ∀ s ∈ sessions, s.avgMinutesBetweenCommits.isSome ↔ 2 ≤ s.commits.length) :
    specAvgGapMultiset sessions = allCommitGapsOf sessions := by
  rw [specAvgGapMultiset, allCommitGapsOf]
  apply flatMap_filter_eq
  intro s hsmem hp
  have hlen : ¬ (2 ≤ s.commits.length) := by simpa using hp
  have hnone : s.avgMinutesBetweenCommits = none := by
    cases havg : s.avgMinutesBetweenCommits with
    | none => rfl
    | some a =>
      exfalso
      exact hlen ((hwf s hsmem).mp (by rw [havg]; rfl))
  rw [hnone]

/-- C5: the aggregate-level `avgMinutesBetweenCommits` is the rounded mean
of the weighted multiset of already-rounded per-session averages (each
replicated `commitCount - 1` times), undefined exactly when no multi-commit
session exists; `calculateTotals` computes the same value, and every
`aggregateByAuthor` record applies the same shared computation to its
author's sessions. -/
theorem C5_aggregate_weighted_avg_gap (sessions : List Session)
    (hwf : ∀ s ∈ sessions, s.avgMinutesBetweenCommits.isSome ↔ 2 ≤ s.commits.length) :
    ((calculateAggregateStats sessions).avgMinutesBetweenCommits = none
      ↔ specAvgGapMultiset sessions = []) ∧
    (specAvgGapMultiset sessions = [] ↔ ∀ s ∈ sessions, s.commits.length < 2) ∧
    (specAvgGapMultiset sessions ≠ [] →
      (calculateAggregateStats sessions).avgMinutesBetweenCommits
        = some (round2 ((specAvgGapMultiset sessions).sum
            / ((specAvgGapMultiset sessions).length : ℚ)))) ∧
    (calculateTotals sessions).avgMinutesBetweenCommits
      = (calculateAggregateStats sessions).avgMinutesBetweenCommits ∧
    (∀ r ∈ aggregateByAuthor sessions,
      r.stats = calculateAggregateStats
        (sessions.filter (fun s => decide (s.author = r.author)))) := by
  have hspec := allCommitGapsOf_eq_spec sessions hwf
  refine ⟨?_, ?_, ?_, rfl, ?_⟩
  · rw [calcAgg_avgGaps, ← hspec]
    by_cases h : 0 < (specAvgGapMultiset sessions).length
    · rw [if_pos h]
      constructor
      · intro hc; cases hc
      · intro hc
        rw [hc] at h
        simp at h
    · rw [if_neg h]
      simp only [true_iff]
      rcases List.eq_nil_or_concat (specAvgGapMultiset sessions) with hnil | ⟨l2, b, hc⟩
      · exact hnil
      · exfalso
        apply h
        rw [hc]
        simp
  · constructor
    · intro hnil
      intro s hsmem
      by_contra hlen
      have h2 : 2 ≤ s.commits.length := by omega
      obtain ⟨a, ha⟩ := Option.isSome_iff_exists.mp ((hwf s hsmem).mpr h2)
      have hmem2 : a ∈ specAvgGapMultiset sessions := by
        rw [specAvgGapMultiset]
        apply List.mem_flatMap.mpr
        refine ⟨s, List.mem_filter.mpr ⟨hsmem, by simpa using h2⟩, ?_⟩
        rw [ha]
        apply List.mem_replicate.mpr
        exact ⟨by omega, rfl⟩
      rw [hnil] at hmem2
      cases hmem2
    · intro hall
      rw [specAvgGapMultiset]
      have hfil : sessions.filter (fun s => decide (2 ≤ s.commits.length)) = [] := by
        rw [List.filter_eq_nil_iff]
        intro s hsmem
        have := hall s hsmem
        simp only [decide_eq_true_eq]
        omega
      rw [hfil]
      rfl
  · intro hne
    rw [calcAgg_avgGaps, ← hspec,
      if_pos (by cases h : specAvgGapMultiset sessions with
        | nil => exact absurd h hne
        | cons x xs => simp)]
    rw [foldl_plus_eq_sum, zero_add]
  · intro r hr
    rw [aggregateByAuthor] at hr
    have hr2 : r ∈ (groupSessionsByAuthor sessions).map fun e =>
        ({ author := e.1, authorLogin := e.2.2,
           stats := calculateAggregateStats e.2.1 } : AuthorStats) :=
      (mem_sortByLt _ _ _).mp hr
    rcases List.mem_map.mp hr2 with ⟨e, he, hre⟩
    have hfe := (groupSessionsByAuthor_entry sessions e he).1
    rw [← hre]
    simp only
    rw [hfe]

theorem foldl_match_max_eq_filterMap (g : α → Option ℚ) (l : List α) :
    ∀ m0 : ℚ,
      l.foldl (fun m s => match g s with | some v => max m v | none => m) m0
        = (l.filterMap g).foldl max m0 := by
  induction l with
  | nil => intro m0; rfl
  | cons x rest ih =>
    intro m0
    rw [List.foldl_cons, List.filterMap_cons]
    cases hx : g x with
    | none => exact ih m0
    | some v => rw [List.foldl_cons]; exact ih (max m0 v)

theorem maxCommitGapOf_eq (sessions : List Session) :
    maxCommitGapOf sessions
      = (sessions.filterMap (fun s => s.maxMinutesBetweenCommits)).foldl max 0 := by
  rw [maxCommitGapOf]
  exact foldl_match_max_eq_filterMap (fun s => s.maxMinutesBetweenCommits) sessions 0

/-- C6 (amended): the aggregate-level `maxMinutesBetweenCommits` is
undefined iff no session reports a strictly positive per-session maximum
gap (in particular, multi-commit sessions whose commits share one timestamp
report `some 0` and leave the aggregate undefined); when some reported
maximum is positive, the aggregate is the true maximum of the reported
values, rounded to 2 decimals. -/
theorem C6_aggregate_max_gap (sessions : List Session) :
    ((calculateAggregateStats sessions).maxMinutesBetweenCommits = none
      ↔ ¬ ∃ v ∈ sessions.filterMap (fun s => s.maxMinutesBetweenCommits), 0 < v) ∧
    (∀ m, m ∈ sessions.filterMap (fun s => s.maxMinutesBetweenCommits) →
      (∀ v ∈ sessions.filterMap (fun s => s.maxMinutesBetweenCommits), v ≤ m) →
      0 < m →
      (calculateAggregateStats sessions).maxMinutesBetweenCommits
        = some (round2 m)) := by
  set vals := sessions.filterMap (fun s => s.maxMinutesBetweenCommits) with hvals
  have hF : maxCommitGapOf sessions = vals.foldl max 0 := maxCommitGapOf_eq sessions
  constructor
  · rw [calcAgg_maxGaps]
    by_cases h : 0 < maxCommitGapOf sessions
    · rw [if_pos h]
      constructor
      · intro hc; cases hc
      · intro hno
        exfalso
        apply hno
        rw [hF] at h
        rcases foldl_max_mem vals 0 with hmem | hmem
        · rw [hmem] at h; exact absurd h (lt_irrefl 0)
        · exact ⟨vals.foldl max 0, hmem, h⟩
    · rw [if_neg h]
      simp only [true_iff]
      rintro ⟨v, hv, hvpos⟩
      apply h
      rw [hF]
      exact lt_of_lt_of_le hvpos ((le_foldl_max vals 0).2 v hv)
  · intro m hm hmax hmpos
    rw [calcAgg_maxGaps]
    have hfold : maxCommitGapOf sessions = m := by
      rw [hF]
      have h1 : m ≤ vals.foldl max 0 := (le_foldl_max vals 0).2 m hm
      rcases foldl_max_mem vals 0 with hmem | hmem
      · exfalso
        rw [hmem] at h1
        exact absurd (lt_of_lt_of_le hmpos h1) (lt_irrefl 0)
      · exact le_antisymm (hmax _ hmem) h1
    rw [hfold, if_pos hmpos]

/-- A single-commit session fixture (no gap metrics). -/
def sessSingle : Session := ⟨"alice", none, [commitA], 0, 0, 15, "", none, none⟩

/-- Witness for C5: one 2-commit session with average gap 30 plus one
single-commit session give the aggregate weighted average 30. -/
theorem C5_aggregate_weighted_avg_gap_witness :
    (∀ s ∈ [sessAB, sessSingle],
      s.avgMinutesBetweenCommits.isSome ↔ 2 ≤ s.commits.length) ∧
    (specAvgGapMultiset [sessAB, sessSingle] ≠ [] →
      (calculateAggregateStats [sessAB, sessSingle]).avgMinutesBetweenCommits
        = some (round2 ((specAvgGapMultiset [sessAB, sessSingle]).sum
            / ((specAvgGapMultiset [sessAB, sessSingle]).length : ℚ)))) ∧
    specAvgGapMultiset [sessAB, sessSingle] = [30] ∧
    (calculateAggregateStats [sessAB, sessSingle]).avgMinutesBetweenCommits = some 30 := by
  have hwf : ∀ s ∈ [sessAB, sessSingle],
      s.avgMinutesBetweenCommits.isSome ↔ 2 ≤ s.commits.length := by
    intro s hs
    rcases List.mem_cons.mp hs with rfl | hs
    · simp [sessAB]
    · rcases List.mem_singleton.mp hs with rfl
      simp [sessSingle]
  refine ⟨hwf, (C5_aggregate_weighted_avg_gap [sessAB, sessSingle] hwf).2.2.1, ?_, ?_⟩
  · norm_num [specAvgGapMultiset, sessAB, sessSingle, List.filter, List.flatMap]
  · rw [calcAgg_avgGaps]
    norm_num [allCommitGapsOf, sessAB, sessSingle, List.flatMap, round2, jsRound,
      Rat.floor_def']

/-- Counterexample to C6 as stated: a multi-commit session whose commits
share one timestamp has a defined per-session maximum gap (`some 0`), yet
the aggregate-level field is `none`. -/
theorem C6_counterexample_zero_gap_session :
    (calculateAggregateStats (buildSessions tzF0
        [⟨"d1", "dave", none, 0⟩, ⟨"d2", "dave", none, 0⟩] cfg45)).maxMinutesBetweenCommits
      = none ∧
    (buildSessions tzF0 [⟨"d1", "dave", none, 0⟩, ⟨"d2", "dave", none, 0⟩] cfg45).map
        (fun s => (s.commits.length, s.maxMinutesBetweenCommits))
      = [(2, some (0:ℚ))] := by
  have hb : buildSessions tzF0 [⟨"d1", "dave", none, 0⟩, ⟨"d2", "dave", none, 0⟩] cfg45
      = [⟨"dave", none, [⟨"d1", "dave", none, 0⟩, ⟨"d2", "dave", none, 0⟩],
          0, 0, 15, "", some 0, some 0⟩] := by
    norm_num [buildSessions, groupCommitsByAuthor, accumBy, upsert, sortByLt, insertByLt,
      splitSessions, sweepFrom, diffInMinutes, createSession, adjacentGaps, round2, jsRound,
      Rat.floor_def', updLogin, jsTruthyStr, tzF0, cfg45]
  constructor
  · rw [hb, calcAgg_maxGaps]
    norm_num [maxCommitGapOf]
  · rw [hb]
    norm_num

/-- Witness for C6 (amended) on a session list whose only reported maximum
gap is 30: the aggregate maximum is defined and equals 30. -/
theorem C6_aggregate_max_gap_witness :
    ((30:ℚ) ∈ [sessAB].filterMap (fun s => s.maxMinutesBetweenCommits)) ∧
    (∀ v ∈ [sessAB].filterMap (fun s => s.maxMinutesBetweenCommits), v ≤ 30) ∧
    ((0:ℚ) < 30) ∧
    (calculateAggregateStats [sessAB]).maxMinutesBetweenCommits = some (round2 30) ∧
    (calculateAggregateStats [sessAB]).maxMinutesBetweenCommits = some 30 := by
  have hfm : [sessAB].filterMap (fun s => s.maxMinutesBetweenCommits) = [30] := by
    simp [sessAB]
  have hmem : (30:ℚ) ∈ [sessAB].filterMap (fun s => s.maxMinutesBetweenCommits) := by
    rw [hfm]; exact List.mem_singleton_self _
  have hub : ∀ v ∈ [sessAB].filterMap (fun s => s.maxMinutesBetweenCommits), v ≤ 30 := by
    intro v hv
    rw [hfm] at hv
    rcases List.mem_singleton.mp hv with rfl
    exact le_refl _
  have hpos : (0:ℚ) < 30 := by norm_num
  have happ := (C6_aggregate_max_gap [sessAB]).2 30 hmem hub hpos
  refine ⟨hmem, hub, hpos, happ, ?_⟩
  rw [happ]
  norm_num [round2, jsRound, Rat.floor_def']

/-- Characterisation of the strict-greater weekday scan: if everything is at
most the seed it returns the seed; otherwise it returns the maximum together
with the day of the first bucket attaining it. -/
theorem scanMaxDay_spec :
    ∀ (entries : List (ℕ × ℚ)) (m0 : ℚ) (d0 : ℕ),
      ((∀ e ∈ entries, e.2 ≤ m0) →
        entries.foldl (fun acc e => if acc.1 < e.2 then (e.2, e.1) else acc) (m0, d0)
          = (m0, d0)) ∧
      (∀ M, (∃ e ∈ entries, e.2 = M) → (∀ e ∈ entries, e.2 ≤ M) → m0 < M →
        ∀ e0, entries.find? (fun e => decide (M ≤ e.2)) = some e0 →
          entries.foldl (fun acc e => if acc.1 < e.2 then (e.2, e.1) else acc) (m0, d0)
            = (M, e0.1)) := by
  intro entries
  induction entries with
  | nil =>
    intro m0 d0
    refine ⟨fun _ => rfl, ?_⟩
    rintro M ⟨e, he, _⟩ _ _ _ _
    cases he
  | cons x rest ih =>
    intro m0 d0
    constructor
    · intro hall
      rw [List.foldl_cons, if_neg (not_lt.mpr (hall x (List.mem_cons_self x rest)))]
      exact (ih m0 d0).1 (fun e he => hall e (List.mem_cons_of_mem x he))
    · intro M hex hub hm0 e0 hfind
      have hxM : x.2 ≤ M := hub x (List.mem_cons_self x rest)
      rw [List.foldl_cons]
      by_cases hcase : m0 < x.2
      · rw [if_pos hcase]
        by_cases hxeq : x.2 = M
        · have hfx : (fun e : ℕ × ℚ => decide (M ≤ e.2)) x = true := by
            simp [hxeq]
          rw [show List.find? (fun e : ℕ × ℚ => decide (M ≤ e.2)) (x :: rest) = some x from
            List.find?_cons_of_pos rest hfx] at hfind
          have he0 : e0 = x := (Option.some_injective _ hfind).symm
          subst he0
          rw [← hxeq]
          refine (ih e0.2 e0.1).1 ?_
          intro e he
          rw [hxeq]
          exact hub e (List.mem_cons_of_mem e0 he)
        · have hxlt : x.2 < M := lt_of_le_of_ne hxM hxeq
          rw [show List.find? (fun e : ℕ × ℚ => decide (M ≤ e.2)) (x :: rest)
              = List.find? (fun e : ℕ × ℚ => decide (M ≤ e.2)) rest from
            List.find?_cons_of_neg rest (by simp [not_le.mpr hxlt])] at hfind
          have hex2 : ∃ e ∈ rest, e.2 = M := by
            rcases hex with ⟨e, he, heM⟩
            rcases List.mem_cons.mp he with rfl | he2
            · exact absurd heM hxeq
            · exact ⟨e, he2, heM⟩
          exact (ih x.2 x.1).2 M hex2
            (fun e he => hub e (List.mem_cons_of_mem x he)) hxlt e0 hfind
      · rw [if_neg hcase]
        have hxlt : x.2 < M := lt_of_le_of_lt (not_lt.mp hcase) hm0
        rw [show List.find? (fun e : ℕ × ℚ => decide (M ≤ e.2)) (x :: rest)
            = List.find? (fun e : ℕ × ℚ => decide (M ≤ e.2)) rest from
          List.find?_cons_of_neg rest (by simp [not_le.mpr hxlt])] at hfind
        have hex2 : ∃ e ∈ rest, e.2 = M := by
          rcases hex with ⟨e, he, heM⟩
          rcases List.mem_cons.mp he with rfl | he2
          · exact absurd heM (ne_of_lt hxlt)
          · exact ⟨e, he2, heM⟩
        exact (ih m0 d0).2 M hex2
          (fun e he => hub e (List.mem_cons_of_mem x he)) hm0 e0 hfind

/-- Each weekday bucket sums the hours of the sessions with that weekday. -/
theorem dayHoursOf_entry (sessions : List Session) (e : ℕ × ℚ)
    (he : e ∈ dayHoursOf sessions) :
    e.2 = ((sessions.filter (fun s => decide (jsGetDay s.startTime = e.1))).map
        (fun s => s.durationMinutes / 60)).sum := by
  rw [dayHoursOf] at he
  have h := accumBy_entry (fun s : Session => jsGetDay s.startTime)
    (fun s => 0 + s.durationMinutes / 60)
    (fun h s => h + s.durationMinutes / 60) sessions e he
  rw [accumValue] at h
  cases hf : sessions.filter (fun s => decide (jsGetDay s.startTime = e.1)) with
  | nil => rw [hf] at h; cases h
  | cons y ys =>
    rw [hf] at h
    have h2 := (Option.some_injective _ h).symm
    rw [h2, foldl_add_eq (fun s : Session => s.durationMinutes / 60) ys]
    rw [List.map_cons, List.sum_cons]
    ring

theorem dayHoursOf_keys (sessions : List Session) :
    (dayHoursOf sessions).map Prod.fst
      = dedupFirst (sessions.map (fun s => jsGetDay s.startTime)) :=
  accumBy_keys _ _ _ _

theorem dayHoursOf_ne_nil (sessions : List Session) (h : sessions ≠ []) :
    dayHoursOf sessions ≠ [] := by
  intro hc
  have h2 := dayHoursOf_keys sessions
  rw [hc] at h2
  cases hs : sessions with
  | nil => exact h hs
  | cons s rest =>
    rw [hs, List.map_cons, dedupFirst_cons] at h2
    cases h2

/-- C7 (amended): `mostProductiveDayOfWeek` is undefined iff the session
list is empty; the weekday buckets (in first-encounter order, keyed by the
machine/UTC weekday of `startTime`) sum session hours; when the maximal
bucket sum is strictly positive the result is the weekday of the first
bucket attaining it, but when no bucket sum is positive the scan's `(0, 0)`
seed wins and the result is `"Sunday"` regardless of the buckets. -/
theorem C7_most_productive_day (sessions : List Session) :
    ((calculateAggregateStats sessions).mostProductiveDayOfWeek = none ↔ sessions = []) ∧
    (∀ e ∈ dayHoursOf sessions,
      e.2 = ((sessions.filter (fun s => decide (jsGetDay s.startTime = e.1))).map
          (fun s => s.durationMinutes / 60)).sum) ∧
    ((dayHoursOf sessions).map Prod.fst
      = dedupFirst (sessions.map (fun s => jsGetDay s.startTime))) ∧
    (sessions ≠ [] → (∀ e ∈ dayHoursOf sessions, e.2 ≤ 0) →
      (calculateAggregateStats sessions).mostProductiveDayOfWeek = some "Sunday") ∧
    (∀ M, (∃ e ∈ dayHoursOf sessions, e.2 = M) →
      (∀ e ∈ dayHoursOf sessions, e.2 ≤ M) → 0 < M →
      ∀ e0, (dayHoursOf sessions).find? (fun e => decide (M ≤ e.2)) = some e0 →
        (calculateAggregateStats sessions).mostProductiveDayOfWeek
          = some (dayNames.getD e0.1 "")) := by
  have hsome : sessions ≠ [] →
      calculateMostProductiveDayOfWeek sessions
        = some (dayNames.getD (scanMaxDay (dayHoursOf sessions)).2 "") := by
    intro hne
    have hlen1 : ¬ (sessions.length = 0) := fun hc => hne (List.length_eq_zero.mp hc)
    have hlen2 : ¬ ((dayHoursOf sessions).length = 0) :=
      fun hc => dayHoursOf_ne_nil sessions hne (List.length_eq_zero.mp hc)
    rw [calculateMostProductiveDayOfWeek, if_neg hlen1, if_neg hlen2]
  refine ⟨?_, dayHoursOf_entry sessions, dayHoursOf_keys sessions, ?_, ?_⟩
  · rw [calcAgg_mostProductive]
    constructor
    · intro hc
      by_contra hne
      rw [hsome hne] at hc
      cases hc
    · intro hc
      rw [hc, calculateMostProductiveDayOfWeek]
      simp
  · intro hne hall
    rw [calcAgg_mostProductive, hsome hne]
    have hscan : scanMaxDay (dayHoursOf sessions) = (0, 0) := by
      rw [scanMaxDay]
      exact (scanMaxDay_spec (dayHoursOf sessions) 0 0).1 hall
    rw [hscan]
    rfl
  · intro M hex hub hM e0 hfind
    have hne : sessions ≠ [] := by
      intro hc
      rcases hex with ⟨e, he, _⟩
      subst hc
      rw [dayHoursOf] at he
      cases he
    rw [calcAgg_mostProductive, hsome hne]
    have hscan : scanMaxDay (dayHoursOf sessions) = (M, e0.1) := by
      rw [scanMaxDay]
      exact (scanMaxDay_spec (dayHoursOf sessions) 0 0).2 M hex hub hM e0 hfind
    rw [hscan]

/-- Counterexample to C7 as stated: a single zero-duration session (bonus 0)
starting on a Monday yields `"Sunday"` — not the first (and only) weekday
encountered with the maximal summed hours, which is Monday. -/
theorem C7_counterexample_zero_duration_monday :
    (calculateAggregateStats (buildSessions tzF0 [⟨"m1", "mona", none, 345600000⟩]
        ⟨45, 0, "UTC"⟩)).mostProductiveDayOfWeek = some "Sunday" ∧
    (buildSessions tzF0 [⟨"m1", "mona", none, 345600000⟩] ⟨45, 0, "UTC"⟩).map
        (fun s => jsGetDay s.startTime) = [1] ∧
    dayNames.getD 1 "" = "Monday" ∧
    buildSessions tzF0 [⟨"m1", "mona", none, 345600000⟩] ⟨45, 0, "UTC"⟩ ≠ [] := by
  have hb : buildSessions tzF0 [⟨"m1", "mona", none, 345600000⟩] ⟨45, 0, "UTC"⟩
      = [⟨"mona", none, [⟨"m1", "mona", none, 345600000⟩],
          345600000, 345600000, 0, "", none, none⟩] := by
    norm_num [buildSessions, groupCommitsByAuthor, accumBy, upsert, sortByLt, insertByLt,
      splitSessions, sweepFrom, diffInMinutes, createSession, adjacentGaps, round2, jsRound,
      Rat.floor_def', updLogin, jsTruthyStr, tzF0]
  have hj : jsGetDay 345600000 = 1 := by decide
  refine ⟨?_, ?_, rfl, ?_⟩
  · rw [hb, calcAgg_mostProductive]
    norm_num [calculateMostProductiveDayOfWeek, dayHoursOf, accumBy, upsert, scanMaxDay,
      dayNames]
  · rw [hb]
    simp [hj]
  · rw [hb]
    simp

/-- Witness for C7 (amended): one 45-minute session starting Thursday gives
`"Thursday"`, the weekday of the first bucket attaining the positive
maximum. -/
theorem C7_most_productive_day_witness :
    (∃ e ∈ dayHoursOf [sessAB], e.2 = (3/4 : ℚ)) ∧
    (∀ e ∈ dayHoursOf [sessAB], e.2 ≤ (3/4 : ℚ)) ∧
    ((0:ℚ) < 3/4) ∧
    (dayHoursOf [sessAB]).find? (fun e => decide ((3/4 : ℚ) ≤ e.2)) = some (4, 3/4) ∧
    (calculateAggregateStats [sessAB]).mostProductiveDayOfWeek
      = some (dayNames.getD 4 "") ∧
    (calculateAggregateStats [sessAB]).mostProductiveDayOfWeek = some "Thursday" := by
  have hj : jsGetDay 0 = 4 := by decide
  have hd : dayHoursOf [sessAB] = [(4, 3/4)] := by
    norm_num [dayHoursOf, accumBy, upsert, sessAB, hj]
  have hex : ∃ e ∈ dayHoursOf [sessAB], e.2 = (3/4 : ℚ) := by
    rw [hd]; exact ⟨(4, 3/4), List.mem_singleton_self _, rfl⟩
  have hub : ∀ e ∈ dayHoursOf [sessAB], e.2 ≤ (3/4 : ℚ) := by
    rw [hd]
    intro e he
    rcases List.mem_singleton.mp he with rfl
    exact le_refl _
  have hpos : (0:ℚ) < 3/4 := by norm_num
  have hfind : (dayHoursOf [sessAB]).find? (fun e => decide ((3/4 : ℚ) ≤ e.2))
      = some (4, 3/4) := by
    rw [hd]
    norm_num [List.find?]
  have happ := (C7_most_productive_day [sessAB]).2.2.2.2 (3/4) hex hub hpos (4, 3/4) hfind
  exact ⟨hex, hub, hpos, hfind, happ, by rw [happ]; rfl⟩

/-- The running-minimum step (`Infinity` modelled as `none`). -/
def optMin (acc : Option ℚ) (g : ℚ) : Option ℚ :=
  match acc with
  | none => some g
  | some m => some (min m g)

/-- The adjacent-pair gaps (in minutes) of a sorted session list. -/
def pairGapsOf (sorted : List Session) : List ℚ :=
  (sorted.zip sorted.tail).map (fun p => ((p.2.startTime - p.1.endTime : ℤ) : ℚ) / 60000)

/-- The candidate gaps of `calculateMinTimeBetweenSessions`, as the
specification words them: for each author (one per distinct author), sort
that author's sessions by `endTime` (stably), take the adjacent-pair
`startTime - endTime` gaps in minutes, and keep only the strictly positive
ones. -/
def minSessionGapCandidates (sessions : List Session) : List ℚ :=
  (dedupFirst (sessions.map (fun s => s.author))).flatMap fun a =>
    (pairGapsOf (sortByLt (fun u v : Session => decide (u.endTime < v.endTime))
        (sessions.filter (fun s => decide (s.author = a))))).filter
      (fun g => decide (0 < g))

theorem optMin_isSome (acc : Option ℚ) (g : ℚ) : (optMin acc g).isSome := by
  cases acc <;> rfl

theorem foldl_optMin_some (gs : List ℚ) :
    ∀ m0 : ℚ, gs.foldl optMin (some m0) = some (gs.foldl min m0) := by
  induction gs with
  | nil => intro m0; rfl
  | cons g gs ih => intro m0; rw [List.foldl_cons, List.foldl_cons]; exact ih (min m0 g)

theorem foldl_min_le [LinearOrder α] (l : List α) :
    ∀ m0 : α, l.foldl min m0 ≤ m0 ∧ ∀ v ∈ l, l.foldl min m0 ≤ v := by
  induction l with
  | nil => intro m0; simp
  | cons x xs ih =>
    intro m0
    rcases ih (min m0 x) with ⟨h1, h2⟩
    refine ⟨le_trans h1 (min_le_left _ _), ?_⟩
    intro v hv
    rcases List.mem_cons.mp hv with hv | hv
    · subst hv
      exact le_trans h1 (min_le_right _ _)
    · exact h2 v hv

theorem foldl_min_mem [LinearOrder α] (l : List α) :
    ∀ m0 : α, l.foldl min m0 = m0 ∨ l.foldl min m0 ∈ l := by
  induction l with
  | nil => intro m0; simp
  | cons x xs ih =>
    intro m0
    rcases ih (min m0 x) with h | h
    · rcases min_choice m0 x with hm | hm
      · left; rw [List.foldl_cons, h, hm]
      · right; rw [List.foldl_cons, h, hm]; exact List.mem_cons_self x xs
    · right; exact List.mem_cons_of_mem x h

/-- The per-author fold of `calculateMinTimeBetweenSessions` is the
`optMin` fold over that author's positive adjacent gaps. -/
theorem foldl_congr_mem (l : List α) (f g : β → α → β) (b : β)
    (h : ∀ (acc : β), ∀ x ∈ l, f acc x = g acc x) : l.foldl f b = l.foldl g b := by
  induction l generalizing b with
  | nil => rfl
  | cons x rest ih =>
    rw [List.foldl_cons, List.foldl_cons, h b x (List.mem_cons_self x rest)]
    exact ih _ (fun acc y hy => h acc y (List.mem_cons_of_mem x hy))

theorem authorMinGapFold_eq (as : List Session) (acc : Option ℚ) :
    authorMinGapFold acc as
      = ((pairGapsOf (sortByLt (fun u v : Session => decide (u.endTime < v.endTime)) as)).filter
          (fun g => decide (0 < g))).foldl optMin acc := by
  have hfold : ∀ (pairs : List (Session × Session)) (acc : Option ℚ),
      pairs.foldl (fun acc2 p =>
          let gapMinutes : ℚ := ((p.2.startTime - p.1.endTime : ℤ) : ℚ) / 60000
          if 0 < gapMinutes then
            match acc2 with
            | none => some gapMinutes
            | some m => some (min m gapMinutes)
          else acc2) acc
        = ((pairs.map (fun p => ((p.2.startTime - p.1.endTime : ℤ) : ℚ) / 60000)).filter
              (fun g => decide (0 < g))).foldl optMin acc := by
    intro pairs
    induction pairs with
    | nil => intro acc; rfl
    | cons p ps ih =>
      intro acc
      rw [List.foldl_cons, List.map_cons, List.filter_cons]
      by_cases hp : 0 < ((p.2.startTime - p.1.endTime : ℤ) : ℚ) / 60000
      · rw [if_pos hp]
        rw [if_pos (show (decide (0 < ((p.2.startTime - p.1.endTime : ℤ) : ℚ) / 60000)) = true by
          simpa using hp)]
        rw [List.foldl_cons]
        have hm : (match acc with
            | none => some (((p.2.startTime - p.1.endTime : ℤ) : ℚ) / 60000)
            | some m => some (min m (((p.2.startTime - p.1.endTime : ℤ) : ℚ) / 60000)))
            = optMin acc (((p.2.startTime - p.1.endTime : ℤ) : ℚ) / 60000) := by
          cases acc <;> rfl
        rw [hm]
        exact ih _
      · rw [if_neg hp]
        rw [if_neg (show ¬ ((decide (0 < ((p.2.startTime - p.1.endTime : ℤ) : ℚ) / 60000)) = true) by
          simpa using hp)]
        exact ih acc
  rw [authorMinGapFold]
  by_cases hlen : as.length < 2
  · rw [if_pos hlen]
    set sorted := sortByLt (fun u v : Session => decide (u.endTime < v.endTime)) as with hs
    have hslen : sorted.length = as.length := (sortByLt_perm _ as).length_eq
    have hzip : sorted.zip sorted.tail = [] := by
      cases hsv : sorted with
      | nil => rfl
      | cons a rest =>
        cases hrv : rest with
        | nil => rfl
        | cons b rest2 =>
          exfalso
          rw [hsv, hrv] at hslen
          simp at hslen
          omega
    rw [pairGapsOf, hzip]
    rfl
  · rw [if_neg hlen]
    rw [hfold]
    rfl

theorem foldl_optMin_flatMap (l : List γ) (F : γ → List ℚ) :
    ∀ acc : Option ℚ,
      l.foldl (fun acc e => (F e).foldl optMin acc) acc = (l.flatMap F).foldl optMin acc := by
  induction l with
  | nil => intro acc; rfl
  | cons e rest ih =>
    intro acc
    rw [List.foldl_cons, List.flatMap_cons, List.foldl_append, ih]

theorem assoc_eq_map_keys (l : List (κ × γ)) (F : κ → γ)
    (h : ∀ e ∈ l, e.2 = F e.1) :
    l = (l.map Prod.fst).map (fun k => (k, F k)) := by
  induction l with
  | nil => rfl
  | cons e rest ih =>
    rw [List.map_cons, List.map_cons]
    congr 1
    · have h2 := h e (List.mem_cons_self e rest)
      exact Prod.ext rfl h2
    · exact ih (fun e2 he2 => h e2 (List.mem_cons_of_mem e he2))

/-- Each entry of the simple author grouping in
`calculateMinTimeBetweenSessions` holds exactly that author's sessions. -/
theorem sessionsByAuthorSimple_entry (sessions : List Session)
    (e : String × List Session)
    (he : e ∈ accumBy (fun s : Session => s.author) (fun s => [s]) (fun l s => l ++ [s]) sessions) :
    e.2 = sessions.filter (fun s => decide (s.author = e.1)) := by
  have h := accumBy_entry (fun s : Session => s.author) (fun s => [s])
    (fun l s => l ++ [s]) sessions e he
  rw [accumValue] at h
  cases hf : sessions.filter (fun s => decide (s.author = e.1)) with
  | nil => rw [hf] at h; cases h
  | cons y ys =>
    rw [hf] at h
    have h2 := (Option.some_injective _ h).symm
    rw [h2, foldl_append_singleton]
    rfl

/-- The whole fold of `calculateMinTimeBetweenSessions` is the `optMin`
fold over the candidate list. -/
theorem minTime_fold_eq (sessions : List Session) :
    (accumBy (fun s : Session => s.author) (fun s => [s]) (fun l s => l ++ [s]) sessions).foldl
        (fun acc e => authorMinGapFold acc e.2) none
      = (minSessionGapCandidates sessions).foldl optMin none := by
  set groups := accumBy (fun s : Session => s.author) (fun s => [s]) (fun l s => l ++ [s]) sessions
    with hg
  have hstep : groups.foldl (fun acc e => authorMinGapFold acc e.2) none
      = groups.foldl (fun acc e =>
          ((pairGapsOf (sortByLt (fun u v : Session => decide (u.endTime < v.endTime))
              (sessions.filter (fun s => decide (s.author = e.1))))).filter
            (fun g => decide (0 < g))).foldl optMin acc) none := by
    apply foldl_congr_mem
    intro acc e he
    rw [authorMinGapFold_eq, sessionsByAuthorSimple_entry sessions e he]
  rw [hstep]
  have hF : groups.foldl (fun acc e =>
        ((pairGapsOf (sortByLt (fun u v : Session => decide (u.endTime < v.endTime))
            (sessions.filter (fun s => decide (s.author = e.1))))).filter
          (fun g => decide (0 < g))).foldl optMin acc) none
      = (groups.flatMap (fun e =>
          (pairGapsOf (sortByLt (fun u v : Session => decide (u.endTime < v.endTime))
              (sessions.filter (fun s => decide (s.author = e.1))))).filter
            (fun g => decide (0 < g)))).foldl optMin none :=
    foldl_optMin_flatMap groups _ none
  rw [hF]
  congr 1
  have hkeys : groups.map Prod.fst = dedupFirst (sessions.map (fun s => s.author)) :=
    accumBy_keys _ _ _ _
  have hentries := assoc_eq_map_keys groups
    (fun a => sessions.filter (fun s => decide (s.author = a)))
    (fun e he => sessionsByAuthorSimple_entry sessions e he)
  rw [minSessionGapCandidates, ← hkeys]
  conv_lhs => rw [hentries]
  rw [List.flatMap_map]

theorem dedupFirst_nil [DecidableEq α] : dedupFirst ([] : List α) = [] := by
  rw [dedupFirst]

theorem minSessionGapCandidates_nil_of_short (sessions : List Session)
    (hlen : sessions.length < 2) : minSessionGapCandidates sessions = [] := by
  match sessions with
  | [] =>
    rw [minSessionGapCandidates]
    simp [dedupFirst_nil]
  | [s] =>
    have hd : dedupFirst ([s].map (fun s => s.author)) = [s.author] := by
      rw [List.map_cons, List.map_nil, dedupFirst_cons, List.filter_nil, dedupFirst_nil]
    rw [minSessionGapCandidates, hd, List.flatMap_cons, List.flatMap_nil, List.append_nil]
    have hfil : [s].filter (fun s2 => decide (s2.author = s.author)) = [s] := by
      simp
    rw [hfil]
    rfl
  | a :: b :: rest =>
    exfalso
    simp only [List.length_cons] at hlen
    omega

theorem length_ge_two_of_mem_candidates (sessions : List Session) (m : ℚ)
    (hmem : m ∈ minSessionGapCandidates sessions) : 2 ≤ sessions.length := by
  rcases List.mem_flatMap.mp hmem with ⟨a, _, hm⟩
  rcases List.mem_filter.mp hm with ⟨hm2, _⟩
  rw [pairGapsOf] at hm2
  rcases List.mem_map.mp hm2 with ⟨p, hp, _⟩
  set sorted := sortByLt (fun u v : Session => decide (u.endTime < v.endTime))
    (sessions.filter (fun s => decide (s.author = a))) with hs
  have hpos : 0 < (sorted.zip sorted.tail).length :=
    List.length_pos.mpr (List.ne_nil_of_mem hp)
  rw [List.length_zip, List.length_tail] at hpos
  have hslen : sorted.length = (sessions.filter (fun s => decide (s.author = a))).length :=
    (sortByLt_perm _ _).length_eq
  have hfle : (sessions.filter (fun s => decide (s.author = a))).length ≤ sessions.length :=
    List.length_filter_le _ _
  omega

/-- C8: `minTimeBetweenSessionsMin` is undefined exactly when the candidate
set — the strictly positive adjacent gaps of each author's sessions sorted
by `endTime` — is empty, and otherwise equals the global minimum candidate,
rounded to 2 decimals. -/
theorem C8_min_time_between_sessions (sessions : List Session) :
    ((calculateAggregateStats sessions).minTimeBetweenSessionsMin = none
      ↔ minSessionGapCandidates sessions = []) ∧
    (∀ m, m ∈ minSessionGapCandidates sessions →
      (∀ x ∈ minSessionGapCandidates sessions, m ≤ x) →
      (calculateAggregateStats sessions).minTimeBetweenSessionsMin
        = some (round2 m)) := by
  rw [calcAgg_minTime]
  by_cases hlen : sessions.length < 2
  · rw [calculateMinTimeBetweenSessions, if_pos hlen]
    refine ⟨⟨fun _ => minSessionGapCandidates_nil_of_short sessions hlen, fun _ => rfl⟩, ?_⟩
    intro m hm _
    exfalso
    rw [minSessionGapCandidates_nil_of_short sessions hlen] at hm
    cases hm
  · have hunfold : calculateMinTimeBetweenSessions sessions
        = ((minSessionGapCandidates sessions).foldl optMin none).map round2 := by
      rw [calculateMinTimeBetweenSessions, if_neg hlen]
      simp only [minTime_fold_eq]
    rw [hunfold]
    cases hc : minSessionGapCandidates sessions with
    | nil =>
      refine ⟨⟨fun _ => rfl, fun _ => rfl⟩, ?_⟩
      intro m hm
      cases hm
    | cons c cs =>
      have hfold : (c :: cs).foldl optMin none = some (cs.foldl min c) := by
        rw [List.foldl_cons]
        exact foldl_optMin_some cs c
      rw [hfold]
      constructor
      · constructor
        · intro hcon; cases hcon
        · intro hcon; cases hcon
      · intro m hm hub
        have hmin : cs.foldl min c = m := by
          have h1 := foldl_min_le cs c
          have h2 := foldl_min_mem cs c
          have hle1 : cs.foldl min c ≤ m := by
            rcases List.mem_cons.mp hm with rfl | hm2
            · exact h1.1
            · exact h1.2 m hm2
          have hle2 : m ≤ cs.foldl min c := by
            rcases h2 with h2 | h2
            · rw [h2]; exact hub c (List.mem_cons_self c cs)
            · exact hub _ (List.mem_cons_of_mem c h2)
          exact le_antisymm hle1 hle2
        rw [hmin]
        rfl

/-- Two single-commit alice sessions 30 minutes apart (end 10 min, next
start 40 min). -/
def sessGap1 : Session := ⟨"alice", none, [commitA], 0, 600000, 15, "", none, none⟩

def sessGap2 : Session := ⟨"alice", none, [commitA], 2400000, 3000000, 15, "", none, none⟩

/-- Witness for C8: the only candidate gap is 30 minutes and the aggregate
reports `some 30`. -/
theorem C8_min_time_between_sessions_witness :
    minSessionGapCandidates [sessGap1, sessGap2] = [30] ∧
    ((30:ℚ) ∈ minSessionGapCandidates [sessGap1, sessGap2]) ∧
    (calculateAggregateStats [sessGap1, sessGap2]).minTimeBetweenSessionsMin
      = some (round2 30) ∧
    (calculateAggregateStats [sessGap1, sessGap2]).minTimeBetweenSessionsMin
      = some 30 := by
  have hc : minSessionGapCandidates [sessGap1, sessGap2] = [30] := by
    norm_num [minSessionGapCandidates, dedupFirst, pairGapsOf, sortByLt, insertByLt,
      sessGap1, sessGap2, List.filter]
  have hmem : (30:ℚ) ∈ minSessionGapCandidates [sessGap1, sessGap2] := by
    rw [hc]; exact List.mem_singleton_self _
  have hub : ∀ x ∈ minSessionGapCandidates [sessGap1, sessGap2], (30:ℚ) ≤ x := by
    rw [hc]
    intro x hx
    rcases List.mem_singleton.mp hx with rfl
    exact le_refl _
  have happ := (C8_min_time_between_sessions [sessGap1, sessGap2]).2 30 hmem hub
  refine ⟨hc, hmem, happ, ?_⟩
  rw [happ]
  norm_num [round2, jsRound, Rat.floor_def']

theorem charListLt_asymm :
    ∀ l1 l2 : List Char, charListLt l1 l2 = true → charListLt l2 l1 = false := by
  intro l1
  induction l1 with
  | nil =>
    intro l2 h
    cases l2 with
    | nil => cases h
    | cons y ys => rfl
  | cons x xs ih =>
    intro l2 h
    cases l2 with
    | nil => cases h
    | cons y ys =>
      rw [charListLt] at h
      rw [charListLt]
      by_cases h1 : x.toNat < y.toNat
      · rw [if_neg (by omega), if_pos h1]
      · by_cases h2 : y.toNat < x.toNat
        · rw [if_neg h1, if_pos h2] at h
          cases h
        · rw [if_neg h1, if_neg h2] at h
          rw [if_neg h2, if_neg h1]
          exact ih ys h

theorem charListLt_cotrans :
    ∀ (c a b : List Char), charListLt c a = true →
      charListLt c b = true ∨ charListLt b a = true := by
  intro c
  induction c with
  | nil =>
    intro a b h
    cases a with
    | nil => cases h
    | cons y as =>
      cases b with
      | nil => right; rfl
      | cons w bs => left; rfl
  | cons x cs ih =>
    intro a b h
    cases a with
    | nil => cases h
    | cons y as =>
      cases b with
      | nil => right; rfl
      | cons w bs =>
        rw [charListLt] at h
        by_cases hxy : x.toNat < y.toNat
        · by_cases hxw : x.toNat < w.toNat
          · left; rw [charListLt, if_pos hxw]
          · right; rw [charListLt, if_pos (by omega)]
        · by_cases hyx : y.toNat < x.toNat
          · rw [if_neg hxy, if_pos hyx] at h
            cases h
          · rw [if_neg hxy, if_neg hyx] at h
            by_cases hxw : x.toNat < w.toNat
            · left; rw [charListLt, if_pos hxw]
            · by_cases hwx : w.toNat < x.toNat
              · right; rw [charListLt, if_pos (by omega)]
              · rcases ih as bs h with h2 | h2
                · left
                  rw [charListLt, if_neg hxw, if_neg hwx]
                  exact h2
                · right
                  rw [charListLt, if_neg (by omega), if_neg (by omega)]
                  exact h2

theorem charListLt_connex :
    ∀ l1 l2 : List Char, charListLt l1 l2 = false → charListLt l2 l1 = false → l1 = l2 := by
  intro l1
  induction l1 with
  | nil =>
    intro l2 h1 _
    cases l2 with
    | nil => rfl
    | cons y ys => cases h1
  | cons x xs ih =>
    intro l2 h1 h2
    cases l2 with
    | nil => cases h2
    | cons y ys =>
      rw [charListLt] at h1 h2
      by_cases hxy : x.toNat < y.toNat
      · rw [if_pos hxy] at h1
        cases h1
      · by_cases hyx : y.toNat < x.toNat
        · rw [if_pos hyx] at h2
          cases h2
        · rw [if_neg hxy, if_neg hyx] at h1
          rw [if_neg hyx, if_neg hxy] at h2
          have hn : x.toNat = y.toNat := by omega
          have hchar : x = y := Char.ext (UInt32.ext hn)
          rw [hchar, ih ys h1 h2]

theorem strLt_asymm (a b : String) (h : strLt a b = true) : strLt b a = false :=
  charListLt_asymm a.data b.data h

theorem strLt_cotrans (a b c : String) (h : strLt c a = true) :
    strLt c b = true ∨ strLt b a = true :=
  charListLt_cotrans c.data a.data b.data h

theorem strLt_connex (a b : String) (h1 : strLt a b = false) (h2 : strLt b a = false) :
    a = b :=
  String.ext (charListLt_connex a.data b.data h1 h2)

theorem dayStep_date (d : DayStats) (s : Session) : (dayStep d s).date = d.date := rfl

theorem dayStep_authors (d : DayStats) (s : Session) :
    (dayStep d s).authors = addUnseen d.authors s.author := rfl

theorem foldl_dayStep_date (ys : List Session) :
    ∀ d0 : DayStats, (ys.foldl dayStep d0).date = d0.date := by
  induction ys with
  | nil => intro d0; rfl
  | cons y ys ih => intro d0; rw [List.foldl_cons, ih, dayStep_date]

theorem foldl_dayStep_authors (ys : List Session) :
    ∀ d0 : DayStats,
      (ys.foldl dayStep d0).authors
        = (ys.map (fun s => s.author)).foldl addUnseen d0.authors := by
  induction ys with
  | nil => intro d0; rfl
  | cons y ys ih =>
    intro d0
    rw [List.foldl_cons, ih, List.map_cons, List.foldl_cons, dayStep_authors]

/-- Each entry of the day map carries its key as `date` and collects the
authors active that day in order of first appearance, without duplicates. -/
theorem dayMap_entry (sessions : List Session) (e : String × DayStats)
    (he : e ∈ accumBy (fun s : Session => s.date) dayInit dayStep sessions) :
    e.2.date = e.1 ∧
    e.2.authors
      = dedupFirst ((sessions.filter (fun s => decide (s.date = e.1))).map
          (fun s => s.author)) := by
  have h := accumBy_entry (fun s : Session => s.date) dayInit dayStep sessions e he
  rw [accumValue] at h
  cases hf : sessions.filter (fun s => decide (s.date = e.1)) with
  | nil => rw [hf] at h; cases h
  | cons y ys =>
    rw [hf] at h
    have h2 := (Option.some_injective _ h).symm
    have hydate : y.date = e.1 := by
      have hy : y ∈ sessions.filter (fun s => decide (s.date = e.1)) := by
        rw [hf]; exact List.mem_cons_self y ys
      simpa using (List.mem_filter.mp hy).2
    constructor
    · rw [h2, foldl_dayStep_date]
      rw [show (dayInit y).date = y.date from rfl, hydate]
    · rw [h2, foldl_dayStep_authors]
      rw [show (dayInit y).authors = [y.author] from rfl]
      rw [foldl_addUnseen]
      rw [List.map_cons, dedupFirst_cons]
      rw [List.singleton_append]
      congr 1
      congr 1
      apply List.filter_congr
      intro a _
      simp

/-- The per-author records of `aggregateByAuthor` in their original
encounter order, before the final sort (used to state sort stability). -/
def authorRecordsPre (sessions : List Session) : List AuthorStats :=
  (groupSessionsByAuthor sessions).map fun e =>
    { author := e.1, authorLogin := e.2.2, stats := calculateAggregateStats e.2.1 }

theorem authorRecordsPre_authors (sessions : List Session) :
    (authorRecordsPre sessions).map (fun r => r.author)
      = dedupFirst (sessions.map (fun s => s.author)) := by
  rw [authorRecordsPre, List.map_map]
  exact accumBy_keys _ _ _ _

/-- C9: `aggregateByAuthor` yields exactly one record per distinct author,
sorted descending by `totalHours` with ties kept in original encounter
order (a stable sort of the encounter-order records); `aggregateByDay`
yields one record per distinct date, sorted strictly ascending by the date
string, each carrying the day's authors uniquely in order of first
appearance. -/
theorem C9_aggregation_views (sessions : List Session) :
    (((aggregateByAuthor sessions).map (fun r => r.author)).Nodup) ∧
    (∀ a, a ∈ (aggregateByAuthor sessions).map (fun r => r.author)
      ↔ a ∈ sessions.map (fun s => s.author)) ∧
    ((aggregateByAuthor sessions).Pairwise
      (fun r1 r2 => r2.stats.totalHours ≤ r1.stats.totalHours)) ∧
    (∀ q : ℚ,
      (aggregateByAuthor sessions).filter (fun r => decide (r.stats.totalHours = q))
        = (authorRecordsPre sessions).filter (fun r => decide (r.stats.totalHours = q))) ∧
    ((authorRecordsPre sessions).map (fun r => r.author)
      = dedupFirst (sessions.map (fun s => s.author))) ∧
    (((aggregateByDay sessions).map (fun d => d.date)).Nodup) ∧
    (∀ d, d ∈ (aggregateByDay sessions).map (fun r => r.date)
      ↔ d ∈ sessions.map (fun s => s.date)) ∧
    ((aggregateByDay sessions).Pairwise
      (fun d1 d2 => strLt d1.date d2.date = true)) ∧
    (∀ r ∈ aggregateByDay sessions,
      r.authors = dedupFirst ((sessions.filter (fun s => decide (s.date = r.date))).map
        (fun s => s.author))) := by
  have hAsort : aggregateByAuthor sessions
      = sortByLt (fun a b : AuthorStats => decide (b.stats.totalHours < a.stats.totalHours))
          (authorRecordsPre sessions) := rfl
  have hAperm := sortByLt_perm
    (fun a b : AuthorStats => decide (b.stats.totalHours < a.stats.totalHours))
    (authorRecordsPre sessions)
  have hAmapperm := hAperm.map (fun r : AuthorStats => r.author)
  have hDsort : aggregateByDay sessions
      = sortByLt (fun a b : DayStats => strLt a.date b.date)
          ((accumBy (fun s : Session => s.date) dayInit dayStep sessions).map
            (fun e => e.2)) := rfl
  have hDperm := sortByLt_perm (fun a b : DayStats => strLt a.date b.date)
    ((accumBy (fun s : Session => s.date) dayInit dayStep sessions).map (fun e => e.2))
  have hDdates : ((accumBy (fun s : Session => s.date) dayInit dayStep sessions).map
        (fun e => e.2)).map (fun d => d.date)
      = dedupFirst (sessions.map (fun s => s.date)) := by
    rw [List.map_map]
    have hcongr : (accumBy (fun s : Session => s.date) dayInit dayStep sessions).map
          ((fun d : DayStats => d.date) ∘ (fun e : String × DayStats => e.2))
        = (accumBy (fun s : Session => s.date) dayInit dayStep sessions).map Prod.fst := by
      apply List.map_congr_left
      intro e he
      exact (dayMap_entry sessions e he).1
    rw [hcongr]
    exact accumBy_keys _ _ _ _
  have hDmapperm := hDperm.map (fun d : DayStats => d.date)
  refine ⟨?_, ?_, ?_, ?_, authorRecordsPre_authors sessions, ?_, ?_, ?_, ?_⟩
  · rw [hAsort]
    apply hAmapperm.nodup_iff.mpr
    rw [authorRecordsPre_authors]
    exact nodup_dedupFirst _
  · intro a
    rw [hAsort]
    rw [hAmapperm.mem_iff, authorRecordsPre_authors, mem_dedupFirst]
  · rw [hAsort]
    have hp := sortByLt_pairwise
      (fun a b : AuthorStats => decide (b.stats.totalHours < a.stats.totalHours))
      (fun a b hab => by
        simp only [decide_eq_true_eq] at hab
        simpa using not_lt_of_gt hab)
      (fun a b c hca => by
        simp only [decide_eq_true_eq] at hca ⊢
        rcases lt_or_ge a.stats.totalHours b.stats.totalHours with h | h
        · right; simpa using h
        · left; simpa using lt_of_le_of_lt h hca)
      (authorRecordsPre sessions)
    refine hp.imp ?_
    intro a b hab
    simpa using hab
  · intro q
    rw [hAsort]
    apply sortByLt_filter
    intro a b ha hb
    have ha2 : a.stats.totalHours = q := by simpa using ha
    have hb2 : b.stats.totalHours = q := by simpa using hb
    simp [ha2, hb2]
  · rw [hDsort]
    apply (hDmapperm.nodup_iff).mpr
    rw [hDdates]
    exact nodup_dedupFirst _
  · intro d
    rw [hDsort, hDmapperm.mem_iff, hDdates, mem_dedupFirst]
  · rw [hDsort]
    have hp := sortByLt_pairwise (fun a b : DayStats => strLt a.date b.date)
      (fun a b hab => strLt_asymm _ _ hab)
      (fun a b c hca => strLt_cotrans _ _ _ hca)
      ((accumBy (fun s : Session => s.date) dayInit dayStep sessions).map (fun e => e.2))
    have hnd : (((sortByLt (fun a b : DayStats => strLt a.date b.date)
          ((accumBy (fun s : Session => s.date) dayInit dayStep sessions).map
            (fun e => e.2))).map (fun d => d.date))).Nodup := by
      apply (hDmapperm.nodup_iff).mpr
      rw [hDdates]
      exact nodup_dedupFirst _
    have hpne : (sortByLt (fun a b : DayStats => strLt a.date b.date)
          ((accumBy (fun s : Session => s.date) dayInit dayStep sessions).map
            (fun e => e.2))).Pairwise (fun d1 d2 => d1.date ≠ d2.date) :=
      (List.pairwise_map.mp hnd)
    have hcomb := hp.and hpne
    refine hcomb.imp ?_
    intro a b hab
    rcases hab with ⟨h1, h2⟩
    cases hlt : strLt a.date b.date with
    | true => rfl
    | false => exact absurd (strLt_connex a.date b.date hlt h1) h2
  · intro r hr
    rw [hDsort] at hr
    have hr2 : r ∈ (accumBy (fun s : Session => s.date) dayInit dayStep sessions).map
        (fun e => e.2) := (mem_sortByLt _ _ _).mp hr
    rcases List.mem_map.mp hr2 with ⟨e, he, hre⟩
    rcases dayMap_entry sessions e he with ⟨hdate, hauthors⟩
    rw [← hre, hauthors, hdate]

def sessDayA2 : Session := ⟨"alice", none, [commitA], 0, 0, 60, "2024-01-02", none, none⟩

def sessDayB1 : Session := ⟨"bob", none, [commitA], 0, 0, 60, "2024-01-01", none, none⟩

def sessDayA1 : Session := ⟨"alice", none, [commitA], 0, 0, 60, "2024-01-01", none, none⟩

/-- Witness for C9: three sessions over two days and two authors produce
day records sorted ascending by date, with the first day's author list
`["bob", "alice"]` in order of first appearance and without duplicates. -/
theorem C9_aggregation_views_witness :
    aggregateByDay [sessDayA2, sessDayB1, sessDayA1]
      = [⟨"2024-01-01", 2, 2, 2, ["bob", "alice"]⟩,
         ⟨"2024-01-02", 1, 1, 1, ["alice"]⟩] ∧
    (⟨"2024-01-01", 2, 2, 2, ["bob", "alice"]⟩ : DayStats)
      ∈ aggregateByDay [sessDayA2, sessDayB1, sessDayA1] ∧
    (⟨"2024-01-01", 2, 2, 2, ["bob", "alice"]⟩ : DayStats).authors
      = dedupFirst ((([sessDayA2, sessDayB1, sessDayA1]).filter
          (fun s => decide (s.date
            = (⟨"2024-01-01", 2, 2, 2, ["bob", "alice"]⟩ : DayStats).date))).map
        (fun s => s.author)) ∧
    ((aggregateByAuthor [sessDayA2, sessDayB1, sessDayA1]).map
      (fun r => r.author)).Nodup := by
  have hlt : strLt "2024-01-01" "2024-01-02" = true := by decide
  have hne : ("alice" : String) ≠ "bob" := by decide
  have hb : aggregateByDay [sessDayA2, sessDayB1, sessDayA1]
      = [⟨"2024-01-01", 2, 2, 2, ["bob", "alice"]⟩,
         ⟨"2024-01-02", 1, 1, 1, ["alice"]⟩] := by
    norm_num [aggregateByDay, accumBy, upsert, dayInit, dayStep, sortByLt, insertByLt,
      sessDayA2, sessDayB1, sessDayA1, hlt, hne]
  have hmem : (⟨"2024-01-01", 2, 2, 2, ["bob", "alice"]⟩ : DayStats)
      ∈ aggregateByDay [sessDayA2, sessDayB1, sessDayA1] := by
    rw [hb]
    exact List.mem_cons_self _ _
  refine ⟨hb, hmem, ?_, ?_⟩
  · exact (C9_aggregation_views [sessDayA2, sessDayB1, sessDayA1]).2.2.2.2.2.2.2.2
      _ hmem
  · exact (C9_aggregation_views [sessDayA2, sessDayB1, sessDayA1]).1
